import Mathlib

/-!
Verification of the task-lattice engine of `lattice_base`.

This file is a shallow embedding, in Lean 4, of the core data model and
algorithms of the Python package `lattice_base`:

* `src/lattice_base/model.py` — `Status`, `Kind`, `Task`, `ProjectMeta`,
  `Lattice`, `Lattice.task_by_id`, `Lattice.task_index`;
* `src/lattice_base/graph.py` — `compute_ready_tasks`, `topological_sort`
  (Kahn's algorithm with a LIFO ready-queue), `iter_edges`;
* `src/lattice_base/io.py` — `load_lattice` (the typed part: construction
  of a `Lattice` from already-parsed data; YAML text parsing is an adapter
  concern and out of scope);
* `src/lattice_base/cli.py` — `main_next` (presentation order of ready
  tasks), `main_validate` (structural error collection),
  `_main_test_single` and `_main_test_complete` (the verification runner).

Python dictionaries are modelled as functions `String → Option _` together
with the insertion-ordered key list (`pyDictKeys`); mutation of task
statuses is modelled as explicit state passing of a map
`String → Option Status`; the subprocess boundary is modelled as an oracle
`exec : String → Int` giving the exit code of a shell command, exactly the
"run(command) -> exit code" capability the specification describes.
-/

namespace LatticeBase

/-- `Status` literal from `model.py`:
`Literal["suggested", "design", "planned", "in-progress", "done", "blocked"]`. -/
inductive Status where
  | suggested
  | design
  | planned
  | inProgress
  | done
  | blocked
deriving DecidableEq

/-- `Kind` literal from `model.py`: `Literal["task", "epic", "subproject", "completion"]`. -/
inductive Kind where
  | task
  | epic
  | subproject
  | completion
deriving DecidableEq

/-- `priority` literal from `model.py`: `Literal["low", "medium", "high"]`. -/
inductive Priority where
  | low
  | medium
  | high
deriving DecidableEq

/-- A task node, from `class Task(BaseModel)` in `model.py`.
The `tags`, `description` and `extra` fields are descriptive only (no behavioral
effect anywhere in the engine), so they are not carried.  The `test` field is
`Option String`; the `normalize_test` validator guarantees a stored command is a
non-empty string, which the embedding inherits by construction. -/
structure Task where
  id : String
  name : String
  kind : Kind
  status : Option Status
  priority : Option Priority
  depends_on : List String
  test : Option String
deriving DecidableEq

/-- Project metadata, from `class ProjectMeta(BaseModel)` in `model.py`
(fields not read by any engine operation are dropped). -/
structure ProjectMeta where
  id : String
  name : String
deriving DecidableEq

/-- The whole-lattice aggregate, from `class Lattice(BaseModel)` in `model.py`:
a project plus an insertion-ordered task list.  Construction performs no
duplicate-id check (there is no validator on `tasks` in `model.py`). -/
structure Lattice where
  project : ProjectMeta
  tasks : List Task
deriving DecidableEq

/-- `io.load_lattice`, restricted to its typed part: after YAML parsing, the
code runs `Lattice(**data)`, i.e. plain construction with field validation but
no structural checks.  Given already-typed components it simply builds the
aggregate and cannot fail. -/
def load_lattice (project : ProjectMeta) (tasks : List Task) : Lattice :=
  { project := project, tasks := tasks }

/-- `Lattice.task_by_id` from `model.py`: scan `self.tasks` front to back and
return the first task whose id matches, else `None`. -/
def task_by_id (lat : Lattice) (task_id : String) : Option Task :=
  go lat.tasks
where
  go : List Task → Option Task
    | [] => none
    | t :: ts => if t.id = task_id then some t else go ts

/-- One step of building the Python dict `{t.id: t for t in tasks}`:
insert/overwrite the binding for `t.id`. -/
def dictInsert (m : String → Option Task) (t : Task) : String → Option Task :=
  fun k => if k = t.id then some t else m k

/-- `Lattice.task_index` from `model.py`: the dict comprehension
`{t.id: t for t in self.tasks}`, as the lookup function it denotes.
Later tasks overwrite earlier ones with the same id. -/
def task_index (lat : Lattice) : String → Option Task :=
  lat.tasks.foldl dictInsert (fun _ => none)

/-- Key list of the Python dict `{t.id: t for t in tasks}` in iteration order:
insertion order, where overwriting a key does not move it, i.e. ids in order
of first occurrence. -/
def pyDictKeys : List Task → List String :=
  go []
where
  go (seen : List String) : List Task → List String
    | [] => []
    | t :: ts => if t.id ∈ seen then go seen ts else t.id :: go (t.id :: seen) ts

/-- Last binding for `k` in a task list (the value the dict comprehension
leaves for key `k`). -/
def findLast (k : String) : List Task → Option Task
  | [] => none
  | t :: ts =>
    match findLast k ts with
    | some u => some u
    | none => if t.id = k then some t else none

theorem foldl_dictInsert_eq (ts : List Task) (m : String → Option Task) (k : String) :
    (ts.foldl dictInsert m) k =
      match findLast k ts with
      | some u => some u
      | none => m k := by
  induction ts generalizing m with
  | nil => simp [findLast]
  | cons t ts ih =>
    simp only [List.foldl_cons, findLast]
    rw [ih]
    cases h : findLast k ts with
    | some u => simp
    | none =>
      simp only [dictInsert]
      by_cases hk : k = t.id
      · rw [if_pos hk, if_pos hk.symm]
      · rw [if_neg hk, if_neg (fun h => hk h.symm)]

/-- `task_index` returns the last task in insertion order bearing the id. -/
theorem task_index_eq_findLast (lat : Lattice) (k : String) :
    task_index lat k = findLast k lat.tasks := by
  unfold task_index
  rw [foldl_dictInsert_eq]
  cases findLast k lat.tasks <;> simp

theorem task_by_id_go_eq_find (task_id : String) (ts : List Task) :
    task_by_id.go task_id ts = ts.find? (fun t => t.id == task_id) := by
  induction ts with
  | nil => rfl
  | cons t ts ih =>
    simp only [task_by_id.go]
    by_cases h : t.id = task_id
    · rw [if_pos h, List.find?_cons_of_pos _ (by simpa using h)]
    · rw [if_neg h, List.find?_cons_of_neg _ (by simpa using h), ih]

/-- `task_by_id` returns the first task in insertion order bearing the id. -/
theorem task_by_id_eq_find (lat : Lattice) (k : String) :
    task_by_id lat k = lat.tasks.find? (fun t => t.id == k) :=
  task_by_id_go_eq_find k lat.tasks

theorem findLast_eq_find_reverse (k : String) (ts : List Task) :
    findLast k ts = ts.reverse.find? (fun t => t.id == k) := by
  induction ts with
  | nil => rfl
  | cons t ts ih =>
    simp only [findLast, List.reverse_cons, List.find?_append, ih]
    cases h : ts.reverse.find? (fun t => t.id == k) with
    | some u => rfl
    | none =>
      simp only [Option.none_or]
      by_cases hk : t.id = k
      · rw [if_pos hk, List.find?_cons_of_pos _ (by simpa using hk)]
      · rw [if_neg hk, List.find?_cons_of_neg _ (by simpa using hk)]
        rfl

theorem findLast_mem {k : String} {ts : List Task} {t : Task}
    (h : findLast k ts = some t) : t ∈ ts ∧ t.id = k := by
  rw [findLast_eq_find_reverse] at h
  have hm := List.mem_of_find?_eq_some h
  have hp := List.find?_some h
  refine ⟨List.mem_reverse.mp hm, by simpa using hp⟩

theorem task_index_mem {lat : Lattice} {k : String} {t : Task}
    (h : task_index lat k = some t) : t ∈ lat.tasks ∧ t.id = k := by
  rw [task_index_eq_findLast] at h
  exact findLast_mem h

theorem pyDictKeys_go_mem (k : String) (ts : List Task) :
    ∀ seen : List String,
      (k ∈ pyDictKeys.go seen ts ↔ (∃ t ∈ ts, t.id = k) ∧ k ∉ seen) := by
  induction ts with
  | nil => intro seen; simp [pyDictKeys.go]
  | cons t ts ih =>
    intro seen
    simp only [pyDictKeys.go]
    by_cases h : t.id ∈ seen
    · rw [if_pos h, ih]
      constructor
      · rintro ⟨⟨u, hu, hid⟩, hk⟩
        exact ⟨⟨u, List.mem_cons_of_mem _ hu, hid⟩, hk⟩
      · rintro ⟨⟨u, hu, hid⟩, hk⟩
        rcases List.mem_cons.mp hu with rfl | hu
        · exact absurd (hid ▸ h) hk
        · exact ⟨⟨u, hu, hid⟩, hk⟩
    · rw [if_neg h]
      constructor
      · intro hmem
        rcases List.mem_cons.mp hmem with rfl | hmem
        · exact ⟨⟨t, List.mem_cons_self t ts, rfl⟩, h⟩
        · obtain ⟨⟨u, hu, hid⟩, hk⟩ := (ih (t.id :: seen)).mp hmem
          exact ⟨⟨u, List.mem_cons_of_mem _ hu, hid⟩,
            fun hks => hk (List.mem_cons_of_mem _ hks)⟩
      · rintro ⟨⟨u, hu, hid⟩, hk⟩
        by_cases hkt : k = t.id
        · exact hkt ▸ List.mem_cons_self _ _
        · apply List.mem_cons_of_mem
          apply (ih (t.id :: seen)).mpr
          rcases List.mem_cons.mp hu with rfl | hu2
          · exact absurd hid.symm hkt
          · exact ⟨⟨u, hu2, hid⟩, fun hks => by
              rcases List.mem_cons.mp hks with h1 | h2
              · exact hkt h1
              · exact hk h2⟩

theorem pyDictKeys_mem (ts : List Task) (k : String) :
    k ∈ pyDictKeys ts ↔ ∃ t ∈ ts, t.id = k := by
  rw [pyDictKeys, pyDictKeys_go_mem]
  simp

theorem pyDictKeys_go_nodup (ts : List Task) :
    ∀ seen : List String, (pyDictKeys.go seen ts).Nodup := by
  induction ts with
  | nil => intro seen; simp [pyDictKeys.go]
  | cons t ts ih =>
    intro seen
    simp only [pyDictKeys.go]
    by_cases h : t.id ∈ seen
    · rw [if_pos h]; exact ih seen
    · rw [if_neg h]
      refine List.nodup_cons.mpr ⟨fun hmem => ?_, ih _⟩
      have := (pyDictKeys_go_mem t.id ts (t.id :: seen)).mp hmem
      exact this.2 (List.mem_cons_self _ _)

theorem pyDictKeys_nodup (ts : List Task) : (pyDictKeys ts).Nodup :=
  pyDictKeys_go_nodup ts []

theorem task_index_isSome_iff (lat : Lattice) (k : String) :
    (task_index lat k).isSome ↔ ∃ t ∈ lat.tasks, t.id = k := by
  rw [task_index_eq_findLast, findLast_eq_find_reverse, List.find?_isSome]
  constructor
  · rintro ⟨t, hm, hp⟩
    exact ⟨t, List.mem_reverse.mp hm, by simpa using hp⟩
  · rintro ⟨t, hm, hid⟩
    exact ⟨t, List.mem_reverse.mpr hm, by simpa using hid⟩

theorem mem_pyDictKeys_iff_isSome (lat : Lattice) (k : String) :
    k ∈ pyDictKeys lat.tasks ↔ (task_index lat k).isSome := by
  rw [pyDictKeys_mem, task_index_isSome_iff]

/-- `graph.compute_ready_tasks`'s helper `is_done`:
`t = idx.get(tid); return bool(t and t.status == "done")`. -/
def is_done (lat : Lattice) (tid : String) : Bool :=
  match task_index lat tid with
  | some t => t.status == some Status.done
  | none => false

/-- The status a task is treated as having where the code writes
`t.status or "suggested"`. -/
def statusOrSuggested (t : Task) : Status :=
  t.status.getD Status.suggested

/-- `graph.compute_ready_tasks`: walk `lat.tasks` in order, skip tasks whose
kind is not `task`, skip tasks whose (defaulted) status is `done` or `blocked`,
and append each remaining task all of whose `depends_on` entries satisfy
`is_done`. -/
def compute_ready_tasks (lat : Lattice) : List Task :=
  lat.tasks.foldl
    (fun ready t =>
      if t.kind ≠ Kind.task then ready
      else if statusOrSuggested t = Status.done ∨ statusOrSuggested t = Status.blocked then ready
      else if t.depends_on.all (fun d => is_done lat d) then ready ++ [t]
      else ready)
    []

/-- The readiness predicate exactly as claim C1 words it: kind is `task`, the
status (absent read as `suggested`) is neither `done` nor `blocked`, and every
dependency id resolves (through the task index) to an existing task whose
status is `done`. -/
def readyClaim (lat : Lattice) (t : Task) : Bool :=
  (t.kind == Kind.task)
    && !(statusOrSuggested t == Status.done || statusOrSuggested t == Status.blocked)
    && t.depends_on.all (fun d =>
        match task_index lat d with
        | some u => u.status == some Status.done
        | none => false)

theorem compute_ready_foldl (lat : Lattice) (ts : List Task) (acc : List Task) :
    ts.foldl
      (fun ready t =>
        if t.kind ≠ Kind.task then ready
        else if statusOrSuggested t = Status.done ∨ statusOrSuggested t = Status.blocked then ready
        else if t.depends_on.all (fun d => is_done lat d) then ready ++ [t]
        else ready)
      acc = acc ++ ts.filter (readyClaim lat) := by
  induction ts generalizing acc with
  | nil => simp
  | cons t ts ih =>
    simp only [List.foldl_cons]
    have hmatch : (fun d =>
        match task_index lat d with
        | some u => u.status == some Status.done
        | none => false) = fun d => is_done lat d := rfl
    have hstep : (if t.kind ≠ Kind.task then acc
        else if statusOrSuggested t = Status.done ∨ statusOrSuggested t = Status.blocked then acc
        else if t.depends_on.all (fun d => is_done lat d) then acc ++ [t] else acc)
        = acc ++ (if readyClaim lat t then [t] else []) := by
      by_cases hk : t.kind = Kind.task
      · by_cases hs : statusOrSuggested t = Status.done ∨ statusOrSuggested t = Status.blocked
        · have hclaim : readyClaim lat t = false := by
            rcases hs with hs | hs <;> simp [readyClaim, hs]
          rw [if_neg (by simpa using hk), if_pos hs, hclaim]
          simp
        · cases hall : t.depends_on.all (fun d => is_done lat d) with
          | true =>
            have hclaim : readyClaim lat t = true := by
              have hs1 : ¬statusOrSuggested t = Status.done := fun h => hs (Or.inl h)
              have hs2 : ¬statusOrSuggested t = Status.blocked := fun h => hs (Or.inr h)
              simp [readyClaim, hk, hs1, hs2, hmatch, hall]
            rw [if_neg (by simpa using hk), if_neg hs, hclaim]
            simp
          | false =>
            have hclaim : readyClaim lat t = false := by
              simp [readyClaim, hmatch, hall]
            rw [if_neg (by simpa using hk), if_neg hs, hclaim]
            simp
      · have hclaim : readyClaim lat t = false := by
          simp [readyClaim, hk]
        rw [if_pos (by simpa using hk), hclaim]
        simp
    rw [hstep, ih, List.filter_cons]
    cases readyClaim lat t <;> simp

/-- `graph.iter_edges`: for every task `t` and dependency entry `dep` that is a
key of the task index, yield the pair `(dep, t.id)`. -/
def iter_edges (lat : Lattice) : List (String × String) :=
  lat.tasks.flatMap (fun t =>
    (t.depends_on.filter (fun d => (task_index lat d).isSome)).map (fun d => (d, t.id)))

theorem iter_edges_mem (lat : Lattice) (d b : String) :
    (d, b) ∈ iter_edges lat ↔
      ∃ t ∈ lat.tasks, t.id = b ∧ d ∈ t.depends_on ∧ (task_index lat d).isSome := by
  unfold iter_edges
  simp only [List.mem_flatMap, List.mem_map, List.mem_filter]
  constructor
  · rintro ⟨t, ht, x, ⟨hx, hres⟩, hpair⟩
    obtain ⟨rfl, rfl⟩ : x = d ∧ t.id = b := by
      constructor <;> [exact congrArg Prod.fst hpair; exact congrArg Prod.snd hpair]
    exact ⟨t, ht, rfl, hx, by simpa using hres⟩
  · rintro ⟨t, ht, rfl, hd, hres⟩
    exact ⟨t, ht, d, ⟨hd, by simpa using hres⟩, rfl⟩

/-! ### Kahn's algorithm (`graph.topological_sort`) -/

/-- Map update on the integer in-degree table, modelling `incoming[k] = v`. -/
def updInt (f : String → Int) (k : String) (v : Int) : String → Int :=
  fun x => if x = k then v else f x

/-- In-degree initialisation of `topological_sort`: starting from
`{k: 0 for k in idx.keys()}`, for every task `t` and every entry
`dep in t.depends_on` with `dep in incoming`, do `incoming[t.id] += 1`.
This is the contribution of one task `t`. -/
def bumpDeg (keys : List String) (inc : String → Int) (t : Task) : String → Int :=
  t.depends_on.foldl
    (fun inc dep => if dep ∈ keys then updInt inc t.id (inc t.id + 1) else inc) inc

def incoming0 (tasks : List Task) (keys : List String) : String → Int :=
  tasks.foldl (bumpDeg keys) (fun _ => 0)

/-- Body of the inner `for t in lat.tasks` loop of `topological_sort` run for
the popped node `n`: when `n in t.depends_on`, decrement `incoming[t.id]` and
append `t.id` to the queue when the decremented count is zero. -/
def relaxStep (n : String) (s : (String → Int) × List String) (t : Task) :
    (String → Int) × List String :=
  if n ∈ t.depends_on then
    let v := s.1 t.id - 1
    (updInt s.1 t.id v, if v = 0 then s.2 ++ [t.id] else s.2)
  else s

def stepTasks (tasks : List Task) (n : String) (inc : String → Int) (q : List String) :
    (String → Int) × List String :=
  tasks.foldl (relaxStep n) (inc, q)

/-- The `while queue:` loop of `topological_sort`.  `queue.pop()` removes the
LAST element.  The Python loop always terminates because each id enters the
queue at most once; `fuel` makes the recursion structural, and
`topological_sort` passes fuel proven sufficient (`kahnLoop_total`), so the
`none` branch below is unreachable. -/
def kahnLoop (tasks : List Task) :
    Nat → (String → Int) → List String → List String → Option (List String)
  | _, _, [], res => some res
  | 0, _, _ :: _, _ => none
  | fuel + 1, inc, x :: xs, res =>
    let n := (x :: xs).getLast (List.cons_ne_nil x xs)
    let s := stepTasks tasks n inc ((x :: xs).dropLast)
    kahnLoop tasks fuel s.1 s.2 (res ++ [n])

/-- The exact message of the `ValueError` raised by `graph.topological_sort`. -/
def cycleMsg : String := "Cycle detected in dependency graph"

/-- `graph.topological_sort`: Kahn's algorithm.  Builds the in-degree table
over the task-index keys, seeds the queue with zero-in-degree keys in key
order, runs the LIFO work loop, and raises
`ValueError("Cycle detected in dependency graph")` (modelled as
`Except.error cycleMsg`) when the produced order misses some id. -/
def topological_sort (lat : Lattice) : Except String (List String) :=
  match kahnLoop lat.tasks (pyDictKeys lat.tasks).length
      (incoming0 lat.tasks (pyDictKeys lat.tasks))
      ((pyDictKeys lat.tasks).filter
        (fun k => incoming0 lat.tasks (pyDictKeys lat.tasks) k == 0)) [] with
  | none => Except.error cycleMsg
  | some result =>
    if result.length ≠ (pyDictKeys lat.tasks).length then Except.error cycleMsg
    else Except.ok result

/-! Closed forms for the in-degree bookkeeping. -/

/-- Number of entries of `t.depends_on` that are index keys (counted with
multiplicity): the total increment `t` contributes to `incoming[t.id]`. -/
def entriesCount (keys : List String) (t : Task) : Nat :=
  (t.depends_on.filter (fun d => decide (d ∈ keys))).length

/-- Total initial in-degree charged to key `k`. -/
def degSum (tasks : List Task) (keys : List String) (k : String) : Nat :=
  ((tasks.filter (fun t => t.id == k)).map (entriesCount keys)).sum

/-- Number of already-popped nodes that occur in `t.depends_on`: the total
decrement applied on behalf of `t` after the pops recorded in `res`. -/
def poppedCount (res : List String) (t : Task) : Nat :=
  (res.filter (fun d => decide (d ∈ t.depends_on))).length

def popSum (tasks : List Task) (res : List String) (k : String) : Nat :=
  ((tasks.filter (fun t => t.id == k)).map (poppedCount res)).sum

/-- Number of tasks named `k` having `n` among their dependencies: the total
decrement applied to `incoming[k]` when `n` is popped. -/
def relaxCount (tasks : List Task) (n : String) (k : String) : Nat :=
  (tasks.filter (fun t => t.id == k && decide (n ∈ t.depends_on))).length

theorem bumpDeg_apply (keys : List String) (inc : String → Int) (t : Task) (k : String) :
    bumpDeg keys inc t k = inc k + (if t.id = k then (entriesCount keys t : Int) else 0) := by
  unfold bumpDeg entriesCount
  induction t.depends_on generalizing inc with
  | nil => simp
  | cons d ds ih =>
    simp only [List.foldl_cons, List.filter_cons]
    by_cases hd : d ∈ keys
    · rw [if_pos hd, ih]
      by_cases hk : t.id = k
      · simp only [updInt, hk, if_pos rfl, hd, decide_True, if_true, List.length_cons]
        push_cast
        ring
      · have hk' : ¬k = t.id := fun h => hk h.symm
        simp [updInt, hk, hk', hd]
    · rw [if_neg hd, ih]
      simp [hd]

theorem incoming0_eq_degSum (tasks : List Task) (keys : List String) (k : String) :
    incoming0 tasks keys k = (degSum tasks keys k : Int) := by
  unfold incoming0 degSum
  suffices h : ∀ (ts : List Task) (m : String → Int),
      (ts.foldl (bumpDeg keys) m) k
        = m k + (((ts.filter (fun t => t.id == k)).map (entriesCount keys)).sum : Int) by
    rw [h tasks (fun _ => 0)]
    simp
  intro ts
  induction ts with
  | nil => intro m; simp
  | cons t ts ih =>
    intro m
    simp only [List.foldl_cons, List.filter_cons]
    rw [ih, bumpDeg_apply]
    by_cases hk : t.id = k
    · rw [if_pos hk, if_pos (by simpa using hk)]
      simp only [List.map_cons, List.sum_cons]
      push_cast
      ring
    · rw [if_neg hk, if_neg (by simpa using hk)]
      ring

theorem relaxCount_append (ps qs : List Task) (n k : String) :
    relaxCount (ps ++ qs) n k = relaxCount ps n k + relaxCount qs n k := by
  unfold relaxCount
  rw [List.filter_append, List.length_append]

theorem relaxCount_cons (t : Task) (ts : List Task) (n k : String) :
    relaxCount (t :: ts) n k
      = (if t.id = k ∧ n ∈ t.depends_on then 1 else 0) + relaxCount ts n k := by
  unfold relaxCount
  rw [List.filter_cons]
  by_cases h1 : t.id = k
  · by_cases h2 : n ∈ t.depends_on
    · rw [if_pos (by simp [h1, h2]), if_pos ⟨h1, h2⟩]
      simp only [List.length_cons]
      omega
    · rw [if_neg (by simp [h2]), if_neg (by simp [h2])]
      simp
  · rw [if_neg (by simp [h1]), if_neg (by simp [h1])]
    simp

theorem poppedCount_append_one (res : List String) (n : String) (t : Task) :
    poppedCount (res ++ [n]) t
      = poppedCount res t + (if n ∈ t.depends_on then 1 else 0) := by
  unfold poppedCount
  rw [List.filter_append, List.length_append]
  by_cases h : n ∈ t.depends_on <;> simp [h]

theorem popSum_append_one (tasks : List Task) (res : List String) (n k : String) :
    popSum tasks (res ++ [n]) k = popSum tasks res k + relaxCount tasks n k := by
  unfold popSum
  induction tasks with
  | nil => simp [relaxCount]
  | cons t ts ih =>
    rw [List.filter_cons, relaxCount_cons]
    by_cases h1 : t.id = k
    · rw [if_pos (by simpa using h1)]
      simp only [List.map_cons, List.sum_cons]
      rw [poppedCount_append_one, ih]
      by_cases h2 : n ∈ t.depends_on
      · rw [if_pos h2, if_pos ⟨h1, h2⟩]; ring
      · rw [if_neg h2, if_neg (by simp [h2])]; ring
    · rw [if_neg (by simpa using h1), if_neg (by simp [h1]), ih]
      ring

theorem relaxCount_nil (n k : String) : relaxCount [] n k = 0 := rfl

theorem relaxCount_one (t : Task) (n k : String) :
    relaxCount [t] n k = if t.id = k ∧ n ∈ t.depends_on then 1 else 0 := by
  rw [relaxCount_cons, relaxCount_nil, Nat.add_zero]

theorem nodup_length_le_of_sub {l m : List String} (hnd : l.Nodup)
    (hsub : ∀ x ∈ l, x ∈ m) : l.length ≤ m.length := by
  calc l.length = l.toFinset.card := (List.toFinset_card_of_nodup hnd).symm
    _ ≤ m.toFinset.card := Finset.card_le_card (fun x hx =>
        List.mem_toFinset.mpr (hsub x (List.mem_toFinset.mp hx)))
    _ ≤ m.length := List.toFinset_card_le m

theorem poppedCount_le_entriesCount {keys res : List String} {t : Task}
    (hnd : res.Nodup) (hsub : ∀ x ∈ res, x ∈ keys) :
    poppedCount res t ≤ entriesCount keys t := by
  unfold poppedCount entriesCount
  apply nodup_length_le_of_sub (hnd.filter _)
  intro x hx
  rw [List.mem_filter] at hx
  rw [List.mem_filter]
  exact ⟨by simpa using hx.2, by simp [hsub x hx.1]⟩

theorem popSum_le_degSum (tasks : List Task) {keys res : List String} (k : String)
    (hnd : res.Nodup) (hsub : ∀ x ∈ res, x ∈ keys) :
    popSum tasks res k ≤ degSum tasks keys k :=
  List.sum_le_sum (fun _ _ => poppedCount_le_entriesCount hnd hsub)

theorem sum_map_eq_pointwise {α : Type} (l : List α) (f g : α → Nat)
    (hle : ∀ x ∈ l, f x ≤ g x) (heq : (l.map f).sum = (l.map g).sum) :
    ∀ x ∈ l, f x = g x := by
  induction l with
  | nil => simp
  | cons a l ih =>
    simp only [List.map_cons, List.sum_cons] at heq
    have h1 : f a ≤ g a := hle a (List.mem_cons_self _ _)
    have h2 : (l.map f).sum ≤ (l.map g).sum :=
      List.sum_le_sum (fun x hx => hle x (List.mem_cons_of_mem _ hx))
    have hfa : f a = g a := by omega
    have hrest : (l.map f).sum = (l.map g).sum := by omega
    intro x hx
    rcases List.mem_cons.mp hx with rfl | hx
    · exact hfa
    · exact ih (fun y hy => hle y (List.mem_cons_of_mem _ hy)) hrest x hx

theorem sum_map_lt_exists {α : Type} (l : List α) (f g : α → Nat)
    (h : (l.map f).sum < (l.map g).sum) : ∃ x ∈ l, f x < g x := by
  by_contra hcon
  push_neg at hcon
  exact absurd (List.sum_le_sum (fun x hx => hcon x hx)) (by omega)

theorem resolving_sub_of_poppedCount_eq {keys res : List String} {t : Task}
    (hnd : res.Nodup) (hsub : ∀ x ∈ res, x ∈ keys)
    (heq : poppedCount res t = entriesCount keys t) :
    ∀ d ∈ t.depends_on, d ∈ keys → d ∈ res := by
  intro d hd hdk
  have hLsub : (res.filter (fun x => decide (x ∈ t.depends_on))).toFinset ⊆
      (t.depends_on.filter (fun x => decide (x ∈ keys))).toFinset := by
    intro x hx
    rw [List.mem_toFinset, List.mem_filter] at hx
    rw [List.mem_toFinset, List.mem_filter]
    exact ⟨by simpa using hx.2, by simp [hsub x hx.1]⟩
  have hcard : (t.depends_on.filter (fun x => decide (x ∈ keys))).toFinset.card ≤
      (res.filter (fun x => decide (x ∈ t.depends_on))).toFinset.card := by
    rw [List.toFinset_card_of_nodup (hnd.filter _)]
    calc (t.depends_on.filter (fun x => decide (x ∈ keys))).toFinset.card
        ≤ (t.depends_on.filter (fun x => decide (x ∈ keys))).length :=
          List.toFinset_card_le _
      _ = (res.filter (fun x => decide (x ∈ t.depends_on))).length := heq.symm
  have hEq := Finset.eq_of_subset_of_card_le hLsub hcard
  have hdM : d ∈ (t.depends_on.filter (fun x => decide (x ∈ keys))).toFinset := by
    rw [List.mem_toFinset, List.mem_filter]
    exact ⟨hd, by simp [hdk]⟩
  rw [← hEq, List.mem_toFinset, List.mem_filter] at hdM
  exact hdM.1

theorem entriesCount_le_poppedCount {keys res : List String} {t : Task}
    (hnd : (t.depends_on.filter (fun d => decide (d ∈ keys))).Nodup)
    (hall : ∀ d ∈ t.depends_on, d ∈ keys → d ∈ res) :
    entriesCount keys t ≤ poppedCount res t := by
  unfold entriesCount poppedCount
  apply nodup_length_le_of_sub hnd
  intro x hx
  rw [List.mem_filter] at hx
  rw [List.mem_filter]
  exact ⟨hall x hx.1 (by simpa using hx.2), by simp [hx.1]⟩

theorem popSum_nil (tasks : List Task) (k : String) : popSum tasks [] k = 0 := by
  unfold popSum poppedCount
  rw [List.sum_eq_zero_iff]
  intro x hx
  simp only [List.mem_map] at hx
  obtain ⟨t, _, rfl⟩ := hx
  simp

/-- Invariant of the state `(incoming, queue)` while the inner relaxation loop
for popped node `n` runs: `res` are the nodes already appended to the result
(`n` included).  Queue and result stay disjoint and within the key set, seen
nodes have nonpositive in-degree, unseen keys positive in-degree, and every
enqueued node has all resolving dependencies (of every task bearing its id)
already in the result. -/
structure MidInv (tasks : List Task) (keys : List String) (n : String)
    (res : List String) (s : (String → Int) × List String) : Prop where
  nodup : (res ++ [n] ++ s.2).Nodup
  sub : ∀ k ∈ res ++ [n] ++ s.2, k ∈ keys
  nonpos : ∀ k ∈ res ++ [n] ++ s.2, s.1 k ≤ 0
  pos : ∀ k ∈ keys, k ∉ res ++ [n] ++ s.2 → 0 < s.1 k
  ready : ∀ k ∈ s.2, ∀ t ∈ tasks, t.id = k → ∀ d ∈ t.depends_on, d ∈ keys → d ∈ res ++ [n]

theorem relax_fold_spec
    (tasks : List Task) (keys : List String) (n : String)
    (inc0 : String → Int) (res : List String)
    (keysAll : ∀ t ∈ tasks, t.id ∈ keys)
    (hIncEq : ∀ k, inc0 k = (degSum tasks keys k : Int) - popSum tasks res k) :
    ∀ (rem ps : List Task), tasks = ps ++ rem →
      ∀ (incM : String → Int) (qM : List String),
        (∀ k, incM k = inc0 k - relaxCount ps n k) →
        MidInv tasks keys n res (incM, qM) →
        (∀ k, (rem.foldl (relaxStep n) (incM, qM)).1 k
            = inc0 k - relaxCount tasks n k) ∧
          MidInv tasks keys n res (rem.foldl (relaxStep n) (incM, qM)) := by
  intro rem
  induction rem with
  | nil =>
    intro ps hsplit incM qM hinc hmid
    rw [List.foldl_nil]
    refine ⟨fun k => ?_, hmid⟩
    dsimp only
    rw [hinc k, hsplit, List.append_nil]
  | cons t rem ih =>
    intro ps hsplit incM qM hinc hmid
    have htmem : t ∈ tasks := by
      rw [hsplit]; exact List.mem_append_right ps (List.mem_cons_self _ _)
    have hsplit' : tasks = (ps ++ [t]) ++ rem := by
      rw [hsplit, List.append_assoc, List.singleton_append]
    rw [List.foldl_cons]
    by_cases hn : n ∈ t.depends_on
    · -- t is relaxed: decrement incoming[t.id], maybe enqueue
      have hstep : relaxStep n (incM, qM) t =
          (updInt incM t.id (incM t.id - 1),
            if incM t.id - 1 = 0 then qM ++ [t.id] else qM) := by
        unfold relaxStep
        rw [if_pos hn]
      have hinc' : ∀ k, (updInt incM t.id (incM t.id - 1)) k
          = inc0 k - relaxCount (ps ++ [t]) n k := by
        intro k
        rw [relaxCount_append, relaxCount_one]
        unfold updInt
        by_cases hk : k = t.id
        · rw [if_pos hk, hinc t.id, if_pos ⟨hk.symm, hn⟩, hk]
          push_cast
          ring
        · rw [if_neg hk, hinc k, if_neg (fun h => hk h.1.symm)]
          push_cast
          ring
      by_cases hseen : t.id ∈ res ++ [n] ++ qM
      · -- already seen: incoming was ≤ 0, goes to < 0, no enqueue
        have hle : incM t.id ≤ 0 := hmid.nonpos t.id hseen
        have hneq : ¬(incM t.id - 1 = 0) := by omega
        rw [hstep, if_neg hneq]
        apply ih (ps ++ [t]) hsplit' _ _ hinc'
        refine ⟨hmid.nodup, hmid.sub, ?_, ?_, hmid.ready⟩
        · intro k hk
          dsimp only [updInt]
          by_cases hkt : k = t.id
          · rw [if_pos hkt]; omega
          · rw [if_neg hkt]; exact hmid.nonpos k hk
        · intro k hk hknot
          dsimp only [updInt]
          rw [if_neg (fun h : k = t.id => hknot (h ▸ hseen))]
          exact hmid.pos k hk hknot
      · -- unseen: incoming was > 0
        have hgt : 0 < incM t.id := hmid.pos t.id (keysAll t htmem) hseen
        by_cases hz : incM t.id - 1 = 0
        · -- reaches zero: enqueue t.id; all resolving deps of tasks named t.id are in res ++ [n]
          have hone : incM t.id = 1 := by omega
          have hresnd : (res ++ [n]).Nodup := ((List.nodup_append.mp hmid.nodup).1)
          have hressub : ∀ x ∈ res ++ [n], x ∈ keys := fun x hx =>
            hmid.sub x (List.mem_append_left _ hx)
          -- pop-count balance: degSum t.id = popSum (res ++ [n]) t.id
          have hbal : popSum tasks (res ++ [n]) t.id = degSum tasks keys t.id := by
            have h1 : (degSum tasks keys t.id : Int)
                = popSum tasks res t.id + relaxCount ps n t.id + 1 := by
              have := hinc t.id
              have h0 := hIncEq t.id
              omega
            have h2 : relaxCount ps n t.id + 1 ≤ relaxCount tasks n t.id := by
              rw [hsplit, relaxCount_append, relaxCount_cons, if_pos ⟨rfl, hn⟩]
              omega
            have h3 : degSum tasks keys t.id ≤ popSum tasks (res ++ [n]) t.id := by
              rw [popSum_append_one]
              omega
            exact Nat.le_antisymm (popSum_le_degSum tasks t.id hresnd hressub) h3
          have hpoint : ∀ u ∈ tasks.filter (fun u => u.id == t.id),
              poppedCount (res ++ [n]) u = entriesCount keys u :=
            sum_map_eq_pointwise _ _ _
              (fun u _ => poppedCount_le_entriesCount hresnd hressub) hbal
          have hreadyNew : ∀ u ∈ tasks, u.id = t.id →
              ∀ d ∈ u.depends_on, d ∈ keys → d ∈ res ++ [n] := by
            intro u hu huid d hd hdk
            have humem : u ∈ tasks.filter (fun u => u.id == t.id) :=
              List.mem_filter.mpr ⟨hu, by simpa using huid⟩
            exact resolving_sub_of_poppedCount_eq hresnd hressub (hpoint u humem) d hd hdk
          rw [hstep, if_pos hz]
          apply ih (ps ++ [t]) hsplit' _ _ hinc'
          have hperm : List.Perm (res ++ [n] ++ (qM ++ [t.id]))
              (t.id :: (res ++ [n] ++ qM)) := by
            rw [(List.append_assoc (res ++ [n]) qM [t.id]).symm]
            exact List.perm_append_comm
          have hnd2 : (t.id :: (res ++ [n] ++ qM)).Nodup :=
            List.nodup_cons.mpr ⟨hseen, hmid.nodup⟩
          refine ⟨hperm.nodup_iff.mpr hnd2, ?_, ?_, ?_, ?_⟩
          · intro k hk
            rcases List.mem_cons.mp (hperm.mem_iff.mp hk) with rfl | hk2
            · exact keysAll t htmem
            · exact hmid.sub k hk2
          · intro k hk
            dsimp only [updInt]
            by_cases hkt : k = t.id
            · rw [if_pos hkt]; omega
            · rw [if_neg hkt]
              rcases List.mem_cons.mp (hperm.mem_iff.mp hk) with rfl | hk2
              · exact absurd rfl hkt
              · exact hmid.nonpos k hk2
          · intro k hk hknot
            dsimp only [updInt]
            have hkt : ¬k = t.id := by
              intro h
              exact hknot (hperm.mem_iff.mpr (h ▸ List.mem_cons_self _ _))
            rw [if_neg hkt]
            refine hmid.pos k hk (fun hk2 => ?_)
            exact hknot (hperm.mem_iff.mpr (List.mem_cons_of_mem _ hk2))
          · intro k hk u hu huid d hd hdk
            rcases List.mem_append.mp hk with hk2 | hk2
            · exact hmid.ready k hk2 u hu huid d hd hdk
            · have : k = t.id := by simpa using hk2
              exact hreadyNew u hu (this ▸ huid) d hd hdk
        · -- decremented but still positive: no enqueue
          rw [hstep, if_neg hz]
          apply ih (ps ++ [t]) hsplit' _ _ hinc'
          refine ⟨hmid.nodup, hmid.sub, ?_, ?_, hmid.ready⟩
          · intro k hk
            dsimp only [updInt]
            by_cases hkt : k = t.id
            · exact absurd (hkt ▸ hk) hseen
            · rw [if_neg hkt]; exact hmid.nonpos k hk
          · intro k hk hknot
            dsimp only [updInt]
            by_cases hkt : k = t.id
            · rw [if_pos hkt]; omega
            · rw [if_neg hkt]; exact hmid.pos k hk hknot
    · -- n not among t's dependencies: nothing changes for t
      have hstep : relaxStep n (incM, qM) t = (incM, qM) := by
        unfold relaxStep
        rw [if_neg hn]
      have hinc' : ∀ k, incM k = inc0 k - relaxCount (ps ++ [t]) n k := by
        intro k
        rw [relaxCount_append, relaxCount_one, if_neg (fun h => hn h.2), hinc k]
        push_cast
        ring
      rw [hstep]
      exact ih (ps ++ [t]) hsplit' _ _ hinc' hmid

theorem indexOf_append_left {a : String} {l m : List String} (h : a ∈ l) :
    (l ++ m).indexOf a = l.indexOf a := by
  induction l with
  | nil => cases h
  | cons x xs ih =>
    by_cases hx : x = a
    · simp [List.indexOf_cons, hx]
    · have hmem : a ∈ xs := by
        rcases List.mem_cons.mp h with h1 | h1
        · exact absurd h1.symm hx
        · exact h1
      simp [List.indexOf_cons, hx, ih hmem]

/-- Invariant of the outer `while queue:` loop of `topological_sort`. -/
structure KInv (tasks : List Task) (keys : List String)
    (inc : String → Int) (q res : List String) : Prop where
  nodup : (res ++ q).Nodup
  sub : ∀ k ∈ res ++ q, k ∈ keys
  incEq : ∀ k, inc k = (degSum tasks keys k : Int) - popSum tasks res k
  nonpos : ∀ k ∈ res ++ q, inc k ≤ 0
  pos : ∀ k ∈ keys, k ∉ res ++ q → 0 < inc k
  ready : ∀ k ∈ q, ∀ t ∈ tasks, t.id = k → ∀ d ∈ t.depends_on, d ∈ keys → d ∈ res
  resOrd : ∀ t ∈ tasks, ∀ d ∈ t.depends_on, d ∈ keys → t.id ∈ res →
    d ∈ res ∧ res.indexOf d < res.indexOf t.id

theorem kinv_step (tasks : List Task) (keys : List String)
    (inc : String → Int) (q res : List String) (n : String)
    (keysAll : ∀ t ∈ tasks, t.id ∈ keys)
    (hinv : KInv tasks keys inc (q ++ [n]) res) :
    KInv tasks keys (stepTasks tasks n inc q).1 (stepTasks tasks n inc q).2 (res ++ [n]) := by
  have hnotres : n ∉ res := by
    have hdisj := (List.nodup_append.mp hinv.nodup).2.2
    intro hmem
    exact hdisj hmem (List.mem_append_right q (List.mem_cons_self n []))
  have hperm : List.Perm (res ++ [n] ++ q) (res ++ (q ++ [n])) := by
    rw [List.append_assoc]
    exact List.Perm.append_left res List.perm_append_comm
  have hmid : MidInv tasks keys n res (inc, q) := by
    refine ⟨hperm.nodup_iff.mpr hinv.nodup, ?_, ?_, ?_, ?_⟩
    · intro k hk
      exact hinv.sub k (hperm.mem_iff.mp hk)
    · intro k hk
      exact hinv.nonpos k (hperm.mem_iff.mp hk)
    · intro k hk hknot
      exact hinv.pos k hk (fun h2 => hknot (hperm.mem_iff.mpr h2))
    · intro k hk t ht htid d hd hdk
      exact List.mem_append_left [n]
        (hinv.ready k (List.mem_append_left [n] hk) t ht htid d hd hdk)
  obtain ⟨hincF, hmidF⟩ := relax_fold_spec tasks keys n inc res keysAll hinv.incEq
    tasks [] rfl inc q (by intro k; rw [relaxCount_nil]; push_cast; ring) hmid
  have hreadyN : ∀ t ∈ tasks, t.id = n → ∀ d ∈ t.depends_on, d ∈ keys → d ∈ res :=
    fun t ht htid d hd hdk =>
      hinv.ready n (List.mem_append_right q (List.mem_cons_self n [])) t ht htid d hd hdk
  refine ⟨hmidF.nodup, hmidF.sub, ?_, hmidF.nonpos, hmidF.pos, hmidF.ready, ?_⟩
  · intro k
    unfold stepTasks
    rw [hincF k, hinv.incEq k, popSum_append_one]
    push_cast
    ring
  · intro t ht d hd hdk htid
    by_cases hres : t.id ∈ res
    · obtain ⟨hdres, hidx⟩ := hinv.resOrd t ht d hd hdk hres
      refine ⟨List.mem_append_left [n] hdres, ?_⟩
      rw [indexOf_append_left hdres, indexOf_append_left hres]
      exact hidx
    · have htn : t.id = n := by
        rcases List.mem_append.mp htid with h1 | h1
        · exact absurd h1 hres
        · simpa using h1
      have hdres : d ∈ res := hreadyN t ht htn d hd hdk
      refine ⟨List.mem_append_left [n] hdres, ?_⟩
      rw [indexOf_append_left hdres, htn, List.indexOf_append_of_not_mem hnotres]
      have h1 : res.indexOf d < res.length := List.indexOf_lt_length.mpr hdres
      have h2 : [n].indexOf n = 0 := by simp
      omega

theorem kahnLoop_run (tasks : List Task) (keys : List String)
    (keysAll : ∀ t ∈ tasks, t.id ∈ keys) :
    ∀ (fuel : Nat) (inc : String → Int) (q res : List String),
      KInv tasks keys inc q res →
      keys.length - res.length ≤ fuel →
      ∃ out incF, kahnLoop tasks fuel inc q res = some out ∧
        KInv tasks keys incF [] out := by
  intro fuel
  induction fuel with
  | zero =>
    intro inc q res hinv hfuel
    cases q with
    | nil => exact ⟨res, inc, rfl, hinv⟩
    | cons x xs =>
      exfalso
      have hlen := nodup_length_le_of_sub hinv.nodup hinv.sub
      rw [List.length_append, List.length_cons] at hlen
      omega
  | succ fuel ih =>
    intro inc q res hinv hfuel
    cases q with
    | nil => exact ⟨res, inc, rfl, hinv⟩
    | cons x xs =>
      have hlen := nodup_length_le_of_sub hinv.nodup hinv.sub
      rw [List.length_append, List.length_cons] at hlen
      have hne : x :: xs ≠ [] := List.cons_ne_nil x xs
      have hsplitq : (x :: xs).dropLast ++ [(x :: xs).getLast hne] = x :: xs :=
        List.dropLast_append_getLast hne
      have hinv' : KInv tasks keys inc ((x :: xs).dropLast ++ [(x :: xs).getLast hne]) res := by
        rw [hsplitq]; exact hinv
      have hstep := kinv_step tasks keys inc ((x :: xs).dropLast) res
        ((x :: xs).getLast hne) keysAll hinv'
      have hfuel' : keys.length - (res ++ [(x :: xs).getLast hne]).length ≤ fuel := by
        rw [List.length_append, List.length_cons]
        simp only [List.length_nil]
        omega
      obtain ⟨out, incF, hrun, hinvF⟩ := ih _ _ _ hstep hfuel'
      exact ⟨out, incF, hrun, hinvF⟩

theorem kinv_init (lat : Lattice) :
    KInv lat.tasks (pyDictKeys lat.tasks)
      (incoming0 lat.tasks (pyDictKeys lat.tasks))
      ((pyDictKeys lat.tasks).filter
        (fun k => incoming0 lat.tasks (pyDictKeys lat.tasks) k == 0))
      [] := by
  set keys := pyDictKeys lat.tasks with hkeys
  set inc := incoming0 lat.tasks keys with hinc
  have hz : ∀ k ∈ keys.filter (fun k => inc k == 0), inc k = 0 := by
    intro k hk
    have := (List.mem_filter.mp hk).2
    simpa using this
  refine ⟨?_, ?_, ?_, ?_, ?_, ?_, ?_⟩
  · simpa using (pyDictKeys_nodup lat.tasks).filter _
  · intro k hk
    simp only [List.nil_append] at hk
    exact (List.mem_filter.mp hk).1
  · intro k
    rw [hinc, incoming0_eq_degSum, popSum_nil]
    push_cast
    ring
  · intro k hk
    simp only [List.nil_append] at hk
    rw [hz k hk]
  · intro k hk hknot
    simp only [List.nil_append] at hknot
    have hne : ¬inc k = 0 := by
      intro h0
      exact hknot (List.mem_filter.mpr ⟨hk, by simpa using h0⟩)
    have hge : 0 ≤ inc k := by
      rw [hinc, incoming0_eq_degSum]
      exact Int.natCast_nonneg _
    omega
  · intro k hk t ht htid d hd hdk
    exfalso
    have h0 : inc k = 0 := hz k hk
    rw [hinc, incoming0_eq_degSum] at h0
    have hdeg : degSum lat.tasks keys k = 0 := by exact_mod_cast h0
    have htf : t ∈ lat.tasks.filter (fun u => u.id == k) :=
      List.mem_filter.mpr ⟨ht, by simpa using htid⟩
    have hent : entriesCount keys t = 0 := by
      have := List.sum_eq_zero_iff.mp hdeg (entriesCount keys t)
        (List.mem_map.mpr ⟨t, htf, rfl⟩)
      exact this
    unfold entriesCount at hent
    rw [List.length_eq_zero] at hent
    have : d ∈ t.depends_on.filter (fun d => decide (d ∈ keys)) :=
      List.mem_filter.mpr ⟨hd, by simpa using hdk⟩
    rw [hent] at this
    cases this
  · intro t _ d _ _ htid
    cases htid

/-- A dependency edge of the lattice, in the direction dependency → dependent,
as enumerated by `iter_edges` (dangling references carry no edge). -/
def edgeRel (lat : Lattice) (a b : String) : Prop :=
  (a, b) ∈ iter_edges lat

/-- The lattice has no dependency cycle: no id reaches itself along one or
more dependency edges. -/
def Acyclic (lat : Lattice) : Prop :=
  ∀ a, ¬Relation.TransGen (edgeRel lat) a a

/-- No task lists the same resolving dependency id twice in its `depends_on`.
`topological_sort` counts duplicate entries twice when building in-degrees but
decrements only once per popped node (`if n in t.depends_on`), so this is the
precondition under which Kahn's bookkeeping balances. -/
def ResolvingDepsNodup (lat : Lattice) : Prop :=
  ∀ t ∈ lat.tasks,
    (t.depends_on.filter (fun d => decide (d ∈ pyDictKeys lat.tasks))).Nodup

theorem topological_sort_run (lat : Lattice) :
    ∃ out incF,
      kahnLoop lat.tasks (pyDictKeys lat.tasks).length
          (incoming0 lat.tasks (pyDictKeys lat.tasks))
          ((pyDictKeys lat.tasks).filter
            (fun k => incoming0 lat.tasks (pyDictKeys lat.tasks) k == 0)) []
        = some out ∧ KInv lat.tasks (pyDictKeys lat.tasks) incF [] out := by
  apply kahnLoop_run lat.tasks (pyDictKeys lat.tasks)
    (fun t ht => (pyDictKeys_mem lat.tasks t.id).mpr ⟨t, ht, rfl⟩)
    _ _ _ _ (kinv_init lat)
  simp

theorem topological_sort_ok_spec {lat : Lattice} {res : List String}
    (h : topological_sort lat = Except.ok res) :
    res.Nodup ∧ (∀ k, k ∈ res ↔ k ∈ pyDictKeys lat.tasks) ∧
      (∀ t ∈ lat.tasks, ∀ d ∈ t.depends_on, d ∈ pyDictKeys lat.tasks →
        d ∈ res ∧ res.indexOf d < res.indexOf t.id) := by
  obtain ⟨out, incF, hrun, hinv⟩ := topological_sort_run lat
  unfold topological_sort at h
  rw [hrun] at h
  dsimp only at h
  by_cases hlen : out.length ≠ (pyDictKeys lat.tasks).length
  · rw [if_pos hlen] at h; cases h
  · rw [if_neg hlen] at h
    obtain rfl : out = res := by injection h
    have hnodup : out.Nodup := by simpa using hinv.nodup
    have hsub : ∀ k ∈ out, k ∈ pyDictKeys lat.tasks := fun k hk =>
      hinv.sub k (by simpa using hk)
    have hlen' : out.length = (pyDictKeys lat.tasks).length := not_ne_iff.mp hlen
    have hfin : out.toFinset = (pyDictKeys lat.tasks).toFinset := by
      apply Finset.eq_of_subset_of_card_le
      · intro x hx
        exact List.mem_toFinset.mpr (hsub x (List.mem_toFinset.mp hx))
      · rw [List.toFinset_card_of_nodup hnodup,
          List.toFinset_card_of_nodup (pyDictKeys_nodup lat.tasks)]
        omega
    have hmem : ∀ k, k ∈ out ↔ k ∈ pyDictKeys lat.tasks := by
      intro k
      rw [← List.mem_toFinset, hfin, List.mem_toFinset]
    refine ⟨hnodup, hmem, ?_⟩
    intro t ht d hd hdk
    have htid : t.id ∈ out :=
      (hmem t.id).mpr ((pyDictKeys_mem lat.tasks t.id).mpr ⟨t, ht, rfl⟩)
    exact hinv.resOrd t ht d hd hdk htid

theorem topological_sort_error_eq {lat : Lattice} {e : String}
    (h : topological_sort lat = Except.error e) : e = cycleMsg := by
  obtain ⟨out, incF, hrun, _⟩ := topological_sort_run lat
  unfold topological_sort at h
  rw [hrun] at h
  dsimp only at h
  by_cases hlen : out.length ≠ (pyDictKeys lat.tasks).length
  · rw [if_pos hlen] at h
    injection h with h
    exact h.symm
  · rw [if_neg hlen] at h
    cases h

/-- Strict monotonicity of result positions along dependency chains: the heart
of both the cycle-impossibility direction and the pass-ordering arguments. -/
theorem transGen_indexOf_lt {lat : Lattice} {res : List String}
    (hspec : ∀ t ∈ lat.tasks, ∀ d ∈ t.depends_on, d ∈ pyDictKeys lat.tasks →
      d ∈ res ∧ res.indexOf d < res.indexOf t.id)
    {a b : String} (h : Relation.TransGen (edgeRel lat) a b) :
    res.indexOf a < res.indexOf b := by
  have hedge : ∀ x y, edgeRel lat x y → res.indexOf x < res.indexOf y := by
    intro x y hxy
    obtain ⟨t, ht, htid, hxd, hres⟩ := (iter_edges_mem lat x y).mp hxy
    have hxk : x ∈ pyDictKeys lat.tasks := (mem_pyDictKeys_iff_isSome lat x).mpr hres
    have := (hspec t ht x hxd hxk).2
    rw [htid] at this
    exact this
  induction h with
  | single h1 => exact hedge _ _ h1
  | tail _ h2 ih => exact lt_trans ih (hedge _ _ h2)

/-- On every lattice with a dependency cycle, `topological_sort` raises the
fixed `ValueError`. -/
theorem topological_sort_error_of_cycle {lat : Lattice} {a : String}
    (h : Relation.TransGen (edgeRel lat) a a) :
    topological_sort lat = Except.error cycleMsg := by
  cases hts : topological_sort lat with
  | error e => rw [topological_sort_error_eq hts]
  | ok res =>
    exfalso
    have hspec := (topological_sort_ok_spec hts).2.2
    exact absurd (transGen_indexOf_lt hspec h) (lt_irrefl _)

theorem no_closed_finset (lat : Lattice) (hA : Acyclic lat) (S : Finset String)
    (hstep : ∀ k ∈ S, ∃ d ∈ S, edgeRel lat d k) : S = ∅ := by
  by_contra hne
  obtain ⟨a, ha⟩ := Finset.nonempty_iff_ne_empty.mpr hne
  have hirr : ∀ z : {x // x ∈ S},
      ¬Relation.TransGen (fun u v : {x // x ∈ S} => edgeRel lat u.val v.val) z z := by
    intro z hz
    exact hA z.val (Relation.TransGen.lift Subtype.val (fun _ _ h => h) hz)
  have hwf : WellFounded
      (Relation.TransGen (fun u v : {x // x ∈ S} => edgeRel lat u.val v.val)) := by
    have : IsIrrefl {x // x ∈ S}
        (Relation.TransGen (fun u v : {x // x ∈ S} => edgeRel lat u.val v.val)) := ⟨hirr⟩
    exact Finite.wellFounded_of_trans_of_irrefl _
  obtain ⟨m, _, hmin⟩ := hwf.has_min Set.univ ⟨⟨a, ha⟩, trivial⟩
  obtain ⟨d, hdS, hdk⟩ := hstep m.val m.prop
  exact hmin ⟨d, hdS⟩ trivial (Relation.TransGen.single hdk)

/-- Completeness of Kahn's loop: on an acyclic lattice with no duplicated
resolving dependency entries, the produced order covers every key, so
`topological_sort` succeeds. -/
theorem topological_sort_ok_of_acyclic {lat : Lattice}
    (hA : Acyclic lat) (hnd : ResolvingDepsNodup lat) :
    ∃ res, topological_sort lat = Except.ok res := by
  classical
  obtain ⟨out, incF, hrun, hinv⟩ := topological_sort_run lat
  have hnodup : out.Nodup := by simpa using hinv.nodup
  have hsub : ∀ k ∈ out, k ∈ pyDictKeys lat.tasks := fun k hk =>
    hinv.sub k (by simpa using hk)
  have hall : ∀ k ∈ pyDictKeys lat.tasks, k ∈ out := by
    by_contra hcon
    push_neg at hcon
    obtain ⟨k0, hk0keys, hk0out⟩ := hcon
    set S : Finset String :=
      (pyDictKeys lat.tasks).toFinset.filter (fun k => k ∉ out) with hS
    have hk0S : k0 ∈ S :=
      Finset.mem_filter.mpr ⟨List.mem_toFinset.mpr hk0keys, hk0out⟩
    have hstep : ∀ k ∈ S, ∃ d ∈ S, edgeRel lat d k := by
      intro k hkS
      obtain ⟨hkkeys, hkout⟩ := Finset.mem_filter.mp hkS
      have hkkeys' := List.mem_toFinset.mp hkkeys
      have hpos : 0 < incF k := hinv.pos k hkkeys' (by simpa using hkout)
      have hincEq := hinv.incEq k
      have hlt : popSum lat.tasks out k < degSum lat.tasks (pyDictKeys lat.tasks) k := by
        have h1 : (popSum lat.tasks out k : Int)
            < (degSum lat.tasks (pyDictKeys lat.tasks) k : Int) := by omega
        exact_mod_cast h1
      obtain ⟨u, huf, hupc⟩ := by
        unfold popSum degSum at hlt
        exact sum_map_lt_exists _ _ _ hlt
      have humem := (List.mem_filter.mp huf).1
      have huid : u.id = k := by simpa using (List.mem_filter.mp huf).2
      by_cases hcall : ∀ d ∈ u.depends_on, d ∈ pyDictKeys lat.tasks → d ∈ out
      · exact absurd (entriesCount_le_poppedCount (hnd u humem) hcall) (by omega)
      · push_neg at hcall
        obtain ⟨d, hd, hdkeys, hdout⟩ := hcall
        refine ⟨d, Finset.mem_filter.mpr ⟨List.mem_toFinset.mpr hdkeys, hdout⟩, ?_⟩
        exact (iter_edges_mem lat d k).mpr
          ⟨u, humem, huid, hd, (mem_pyDictKeys_iff_isSome lat d).mp hdkeys⟩
    have hempty := no_closed_finset lat hA S hstep
    rw [hempty] at hk0S
    exact absurd hk0S (Finset.not_mem_empty k0)
  have hlen : out.length = (pyDictKeys lat.tasks).length :=
    Nat.le_antisymm (nodup_length_le_of_sub hnodup hsub)
      (nodup_length_le_of_sub (pyDictKeys_nodup lat.tasks) hall)
  refine ⟨out, ?_⟩
  unfold topological_sort
  rw [hrun]
  dsimp only
  rw [if_neg (not_ne_iff.mpr hlen)]

/-- Ranking argument to establish acyclicity of concrete lattices: any
function on ids that strictly increases along every edge rules out cycles. -/
theorem acyclic_of_rank (lat : Lattice) (rank : String → Nat)
    (h : ∀ e ∈ iter_edges lat, rank e.1 < rank e.2) : Acyclic lat := by
  intro a hcyc
  have hmono : ∀ x y, Relation.TransGen (edgeRel lat) x y → rank x < rank y := by
    intro x y hxy
    induction hxy with
    | single h1 => exact h _ h1
    | tail _ h2 ih => exact lt_trans ih (h _ h2)
  exact absurd (hmono a a hcyc) (lt_irrefl _)

/-! ### Verification runner: `cli._main_test_complete`

Task records never change during a run except their `status` field (the code
mutates `t.status` on the objects held by `idx`).  The embedding therefore
threads the statuses as an explicit map `σ : String → Option Status` keyed by
task id, alongside the immutable `Lattice`;  `runCompleteOn lat exec σ` is
`_main_test_complete` run on the lattice whose task records carry the statuses
`σ` (as after a save), and a fresh run starts from `initStatus lat`.  Each test
execution is recorded in an `ExecRec` trace entry (command, exit code and the
status the task had when the command ran); this is pure observation of the
`subprocess.run` calls. -/

/-- `t.kind in ("task", "completion")`: the kinds verification applies to. -/
def verifiableKind (k : Kind) : Bool :=
  k == Kind.task || k == Kind.completion

def statusUpd (σ : String → Option Status) (k : String) (v : Option Status) :
    String → Option Status :=
  fun x => if x = k then v else σ x

/-- `initial_status = {tid: t.status for tid, t in idx.items()}`, as a lookup. -/
def initStatus (lat : Lattice) : String → Option Status :=
  fun tid => (task_index lat tid).bind (fun t => t.status)

/-- `deps_done_snapshot(t)` from `_main_test_complete`: every dependency
resolves in the index and had snapshot status `done`. -/
def depsDoneSnap (lat : Lattice) (snap : String → Option Status) (t : Task) : Bool :=
  t.depends_on.all (fun d => (task_index lat d).isSome && (snap d == some Status.done))

/-- `deps_done_current(t)` from `_main_test_complete`: same check against the
continuously-updated statuses. -/
def depsDoneCur (lat : Lattice) (σ : String → Option Status) (t : Task) : Bool :=
  t.depends_on.all (fun d => (task_index lat d).isSome && (σ d == some Status.done))

/-- One iteration of pass 1 (`for tid, t in idx.items(): ...`): demote a
verifiable task whose snapshot status is `done` but whose dependencies were
not all `done` in the snapshot, recording it in `demoted_due_to_deps`. -/
def pass1Step (lat : Lattice) (snap : String → Option Status)
    (s : (String → Option Status) × List String) (tid : String) :
    (String → Option Status) × List String :=
  match task_index lat tid with
  | none => s
  | some t =>
    if !(verifiableKind t.kind) then s
    else if (snap tid == some Status.done) && !(depsDoneSnap lat snap t) then
      (statusUpd s.1 tid (some Status.planned), s.2 ++ [tid])
    else s

def pass1 (lat : Lattice) (snap σ : String → Option Status) :
    (String → Option Status) × List String :=
  (pyDictKeys lat.tasks).foldl (pass1Step lat snap) (σ, [])

/-- One recorded `subprocess.run(t.test, shell=True)` call of pass 2. -/
structure ExecRec where
  tid : String
  cmd : String
  statusBefore : Option Status
  code : Int
deriving DecidableEq

structure P2State where
  σ : String → Option Status
  anyFail : Bool
  execs : List ExecRec

/-- One iteration of pass 2 (`for tid in order: ...`), faithful to the branch
order of the code: kind check, test-command check, demoted-in-pass-1 check,
current-dependency check (demoting a currently-`done` task to `planned`),
then test execution (success promotes to `done`; failure records a run-level
failure and demotes a `done` task to `in-progress`). -/
def pass2Step (lat : Lattice) (execFn : String → Int) (demoted : List String)
    (s : P2State) (tid : String) : P2State :=
  match task_index lat tid with
  | none => s
  | some t =>
    if !(verifiableKind t.kind) then s
    else
      match t.test with
      | none => s
      | some cmd =>
        if tid ∈ demoted then s
        else if !(depsDoneCur lat s.σ t) then
          if s.σ tid == some Status.done then
            { s with σ := statusUpd s.σ tid (some Status.planned) }
          else s
        else
          let code := execFn cmd
          let er : ExecRec := ⟨tid, cmd, s.σ tid, code⟩
          if code = 0 then
            if s.σ tid == some Status.done then
              { s with execs := s.execs ++ [er] }
            else
              { σ := statusUpd s.σ tid (some Status.done), anyFail := s.anyFail,
                execs := s.execs ++ [er] }
          else
            { σ := if s.σ tid == some Status.done then
                statusUpd s.σ tid (some Status.inProgress) else s.σ,
              anyFail := true, execs := s.execs ++ [er] }

structure CompleteOutcome where
  σ : String → Option Status
  demoted : List String
  execs : List ExecRec
  anyFail : Bool
  cycleError : Bool
  exitCode : Int

/-- `_main_test_complete` on the lattice structure of `lat` with current task
statuses `σ0`: compute the topological order (returning exit code 1 with
nothing run on `CycleDetected`), snapshot statuses, run pass 1 then pass 2,
and return 1 iff some test execution failed. -/
def runCompleteOn (lat : Lattice) (execFn : String → Int)
    (σ0 : String → Option Status) : CompleteOutcome :=
  match topological_sort lat with
  | Except.error _ =>
    { σ := σ0, demoted := [], execs := [], anyFail := false,
      cycleError := true, exitCode := 1 }
  | Except.ok order =>
    let p1 := pass1 lat σ0 σ0
    let s2 := order.foldl (pass2Step lat execFn p1.2)
      { σ := p1.1, anyFail := false, execs := [] }
    { σ := s2.σ, demoted := p1.2, execs := s2.execs, anyFail := s2.anyFail,
      cycleError := false, exitCode := if s2.anyFail then 1 else 0 }

/-- A fresh `lattice-base-test --complete` invocation on `lat`. -/
def runComplete (lat : Lattice) (execFn : String → Int) : CompleteOutcome :=
  runCompleteOn lat execFn (initStatus lat)

theorem runCompleteOn_cycle {lat : Lattice} {e : String}
    (h : topological_sort lat = Except.error e) (execFn : String → Int)
    (σ0 : String → Option Status) :
    runCompleteOn lat execFn σ0 =
      { σ := σ0, demoted := [], execs := [], anyFail := false,
        cycleError := true, exitCode := 1 } := by
  unfold runCompleteOn
  rw [h]

theorem runCompleteOn_ok {lat : Lattice} {order : List String}
    (h : topological_sort lat = Except.ok order) (execFn : String → Int)
    (σ0 : String → Option Status) :
    runCompleteOn lat execFn σ0 =
      { σ := ((order.foldl (pass2Step lat execFn (pass1 lat σ0 σ0).2)
          { σ := (pass1 lat σ0 σ0).1, anyFail := false, execs := [] }) : P2State).σ,
        demoted := (pass1 lat σ0 σ0).2,
        execs := (order.foldl (pass2Step lat execFn (pass1 lat σ0 σ0).2)
          { σ := (pass1 lat σ0 σ0).1, anyFail := false, execs := [] }).execs,
        anyFail := (order.foldl (pass2Step lat execFn (pass1 lat σ0 σ0).2)
          { σ := (pass1 lat σ0 σ0).1, anyFail := false, execs := [] }).anyFail,
        cycleError := false,
        exitCode := if (order.foldl (pass2Step lat execFn (pass1 lat σ0 σ0).2)
          { σ := (pass1 lat σ0 σ0).1, anyFail := false, execs := [] }).anyFail
          then 1 else 0 } := by
  unfold runCompleteOn
  rw [h]

/-- The pass-1 demotion condition, per id. -/
def demoteCond (lat : Lattice) (snap : String → Option Status) (tid : String) : Bool :=
  match task_index lat tid with
  | none => false
  | some t =>
    verifiableKind t.kind && ((snap tid == some Status.done)
      && !(depsDoneSnap lat snap t))

theorem pass1Step_eq (lat : Lattice) (snap : String → Option Status)
    (s : (String → Option Status) × List String) (tid : String) :
    pass1Step lat snap s tid =
      if demoteCond lat snap tid
      then (statusUpd s.1 tid (some Status.planned), s.2 ++ [tid])
      else s := by
  unfold pass1Step demoteCond
  cases task_index lat tid with
  | none => simp
  | some t =>
    dsimp only
    by_cases hv : verifiableKind t.kind <;>
      by_cases hc : (snap tid == some Status.done) && !(depsDoneSnap lat snap t) <;>
        simp [hv, hc]

theorem pass1_fold_spec (lat : Lattice) (snap : String → Option Status) :
    ∀ (ks : List String) (σa : String → Option Status) (da : List String),
      (ks.foldl (pass1Step lat snap) (σa, da)).2
          = da ++ ks.filter (demoteCond lat snap) ∧
        ∀ k, (ks.foldl (pass1Step lat snap) (σa, da)).1 k
          = if k ∈ ks.filter (demoteCond lat snap) then some Status.planned else σa k := by
  intro ks
  induction ks with
  | nil => intro σa da; simp
  | cons tid ks ih =>
    intro σa da
    rw [List.foldl_cons, pass1Step_eq, List.filter_cons]
    by_cases hc : demoteCond lat snap tid
    · rw [if_pos hc, if_pos hc]
      obtain ⟨h2, h1⟩ := ih (statusUpd σa tid (some Status.planned)) (da ++ [tid])
      refine ⟨by rw [h2, List.append_assoc, List.singleton_append], ?_⟩
      intro k
      rw [h1 k]
      by_cases hk : k ∈ ks.filter (demoteCond lat snap)
      · rw [if_pos hk, if_pos (List.mem_cons_of_mem _ hk)]
      · rw [if_neg hk]
        unfold statusUpd
        by_cases hkt : k = tid
        · rw [if_pos hkt, if_pos (hkt ▸ List.mem_cons_self _ _)]
        · rw [if_neg hkt, if_neg (by
            intro hmem
            rcases List.mem_cons.mp hmem with h | h
            · exact hkt h
            · exact hk h)]
    · rw [if_neg hc, if_neg hc]
      obtain ⟨h2, h1⟩ := ih σa da
      exact ⟨h2, h1⟩

theorem pass1_demoted (lat : Lattice) (snap σ : String → Option Status) :
    (pass1 lat snap σ).2 = (pyDictKeys lat.tasks).filter (demoteCond lat snap) :=
  by simpa using (pass1_fold_spec lat snap (pyDictKeys lat.tasks) σ []).1

theorem pass1_σ (lat : Lattice) (snap σ : String → Option Status) (k : String) :
    (pass1 lat snap σ).1 k
      = if k ∈ (pyDictKeys lat.tasks).filter (demoteCond lat snap)
        then some Status.planned else σ k :=
  (pass1_fold_spec lat snap (pyDictKeys lat.tasks) σ []).2 k

/-- A task demoted in pass 1 is returned unchanged by every pass-2 iteration
bearing its id (the demoted check precedes everything that could mutate). -/
theorem pass2Step_demoted (lat : Lattice) (execFn : String → Int)
    (demoted : List String) (s : P2State) (tid : String) (h : tid ∈ demoted) :
    pass2Step lat execFn demoted s tid = s := by
  unfold pass2Step
  cases task_index lat tid with
  | none => rfl
  | some t =>
    dsimp only
    by_cases hv : verifiableKind t.kind
    · cases htest : t.test with
      | none => simp [hv]
      | some cmd => simp [hv, h]
    · simp [hv]

/-- A pass-2 iteration changes the status map only at its own id. -/
theorem pass2Step_σ_other (lat : Lattice) (execFn : String → Int)
    (demoted : List String) (s : P2State) (tid k : String) (hk : k ≠ tid) :
    (pass2Step lat execFn demoted s tid).σ k = s.σ k := by
  unfold pass2Step
  cases task_index lat tid with
  | none => rfl
  | some t =>
    dsimp only
    by_cases hv : verifiableKind t.kind
    · cases htest : t.test with
      | none => simp [hv]
      | some cmd =>
        by_cases hd : tid ∈ demoted
        · simp [hv, hd]
        · by_cases hcur : depsDoneCur lat s.σ t
          · by_cases hz : execFn cmd = 0
            · by_cases hdone : s.σ tid = some Status.done
              · simp [hv, hd, hcur, hz, hdone]
              · simp [hv, hd, hcur, hz, hdone, statusUpd, hk]
            · by_cases hdone : s.σ tid = some Status.done
              · simp [hv, hd, hcur, hz, hdone, statusUpd, hk]
              · simp [hv, hd, hcur, hz, hdone]
          · by_cases hdone : s.σ tid = some Status.done
            · simp [hv, hd, hcur, hdone, statusUpd, hk]
            · simp [hv, hd, hcur, hdone]
    · simp [hv]

/-- Pass-2 iterations append execution records only for their own id. -/
theorem pass2Step_execs_mem (lat : Lattice) (execFn : String → Int)
    (demoted : List String) (s : P2State) (tid : String) :
    ∀ e ∈ (pass2Step lat execFn demoted s tid).execs,
      e ∈ s.execs ∨ e.tid = tid := by
  unfold pass2Step
  cases task_index lat tid with
  | none => intro e he; exact Or.inl he
  | some t =>
    dsimp only
    by_cases hv : verifiableKind t.kind
    · cases htest : t.test with
      | none =>
        simp only [hv]
        exact fun e he => Or.inl (by simpa using he)
      | some cmd =>
        by_cases hd : tid ∈ demoted
        · simp only [hv, hd]
          exact fun e he => Or.inl (by simpa [hd] using he)
        · by_cases hcur : depsDoneCur lat s.σ t
          · by_cases hz : execFn cmd = 0
            · by_cases hdone : s.σ tid = some Status.done
              · intro e he
                simp [hv, hd, hcur, hz, hdone] at he
                rcases he with he | he
                · exact Or.inl he
                · exact Or.inr (by rw [he])
              · intro e he
                simp [hv, hd, hcur, hz, hdone] at he
                rcases he with he | he
                · exact Or.inl he
                · exact Or.inr (by rw [he])
            · intro e he
              simp [hv, hd, hcur, hz] at he
              rcases he with he | he
              · exact Or.inl he
              · exact Or.inr (by rw [he])
          · intro e he
            by_cases hdone : s.σ tid = some Status.done
            · simp [hv, hd, hcur, hdone] at he
              exact Or.inl he
            · simp [hv, hd, hcur, hdone] at he
              exact Or.inl he
    · simp only [hv]
      exact fun e he => Or.inl (by simpa using he)

theorem pass2_fold_demoted (lat : Lattice) (execFn : String → Int)
    (demoted : List String) :
    ∀ (order : List String) (s : P2State),
      (∀ k ∈ demoted, s.σ k = some Status.planned) →
      (∀ e ∈ s.execs, e.tid ∉ demoted) →
      (∀ k ∈ demoted,
          (order.foldl (pass2Step lat execFn demoted) s).σ k = some Status.planned) ∧
        ∀ e ∈ (order.foldl (pass2Step lat execFn demoted) s).execs, e.tid ∉ demoted := by
  intro order
  induction order with
  | nil => intro s h1 h2; exact ⟨h1, h2⟩
  | cons tid rest ih =>
    intro s h1 h2
    rw [List.foldl_cons]
    by_cases hd : tid ∈ demoted
    · rw [pass2Step_demoted lat execFn demoted s tid hd]
      exact ih s h1 h2
    · apply ih
      · intro k hk
        rw [pass2Step_σ_other lat execFn demoted s tid k (fun h => hd (h ▸ hk))]
        exact h1 k hk
      · intro e he
        rcases pass2Step_execs_mem lat execFn demoted s tid e he with h | h
        · exact h2 e h
        · rw [h]; exact hd

/-- Exhaustive description of what one pass-2 iteration does to the failure
flag and the execution trace: either no command runs (flag and trace
unchanged), or exactly one record for this id is appended; a zero exit code
leaves the flag alone, a non-zero exit code sets it and demotes the task to
`in-progress` when its status was `done`. -/
theorem pass2Step_exec_facts (lat : Lattice) (execFn : String → Int)
    (demoted : List String) (s : P2State) (tid : String) :
    ((pass2Step lat execFn demoted s tid).execs = s.execs ∧
        (pass2Step lat execFn demoted s tid).anyFail = s.anyFail) ∨
      ∃ er : ExecRec, er.tid = tid ∧ er.statusBefore = s.σ tid ∧
        (pass2Step lat execFn demoted s tid).execs = s.execs ++ [er] ∧
        ((er.code = 0 ∧
            (pass2Step lat execFn demoted s tid).anyFail = s.anyFail) ∨
          (er.code ≠ 0 ∧ (pass2Step lat execFn demoted s tid).anyFail = true ∧
            (er.statusBefore = some Status.done →
              (pass2Step lat execFn demoted s tid).σ tid = some Status.inProgress))) := by
  unfold pass2Step
  cases task_index lat tid with
  | none => exact Or.inl ⟨rfl, rfl⟩
  | some t =>
    dsimp only
    by_cases hv : verifiableKind t.kind
    · cases htest : t.test with
      | none => simp [hv]
      | some cmd =>
        by_cases hd : tid ∈ demoted
        · simp [hv, hd]
        · by_cases hcur : depsDoneCur lat s.σ t
          · by_cases hz : execFn cmd = 0
            · refine Or.inr ⟨⟨tid, cmd, s.σ tid, execFn cmd⟩, rfl, rfl, ?_, Or.inl ⟨hz, ?_⟩⟩
              · by_cases hdone : s.σ tid = some Status.done <;>
                  simp [hv, hd, hcur, hz, hdone]
              · by_cases hdone : s.σ tid = some Status.done <;>
                  simp [hv, hd, hcur, hz, hdone]
            · refine Or.inr ⟨⟨tid, cmd, s.σ tid, execFn cmd⟩, rfl, rfl, ?_, Or.inr ⟨hz, ?_, ?_⟩⟩
              · by_cases hdone : s.σ tid = some Status.done <;>
                  simp [hv, hd, hcur, hz, hdone]
              · by_cases hdone : s.σ tid = some Status.done <;>
                  simp [hv, hd, hcur, hz, hdone]
              · intro hdone
                have hdone' : s.σ tid = some Status.done := hdone
                simp [hv, hd, hcur, hz, hdone', statusUpd]
          · by_cases hdone : s.σ tid = some Status.done <;>
              simp [hv, hd, hcur, hdone]
    · simp [hv]

theorem pass2_fold_fail (lat : Lattice) (execFn : String → Int)
    (demoted : List String) :
    ∀ (order : List String) (s : P2State),
      order.Nodup →
      (∀ e ∈ s.execs, e.tid ∉ order) →
      (s.anyFail = true ↔ ∃ e ∈ s.execs, e.code ≠ 0) →
      (∀ e ∈ s.execs, e.code ≠ 0 → e.statusBefore = some Status.done →
        s.σ e.tid = some Status.inProgress) →
      ((order.foldl (pass2Step lat execFn demoted) s).anyFail = true ↔
          ∃ e ∈ (order.foldl (pass2Step lat execFn demoted) s).execs, e.code ≠ 0) ∧
        ∀ e ∈ (order.foldl (pass2Step lat execFn demoted) s).execs,
          e.code ≠ 0 → e.statusBefore = some Status.done →
            (order.foldl (pass2Step lat execFn demoted) s).σ e.tid
              = some Status.inProgress := by
  intro order
  induction order with
  | nil => intro s _ _ h3 h4; exact ⟨h3, h4⟩
  | cons tid rest ih =>
    intro s hnd h2 h3 h4
    rw [List.foldl_cons]
    have hndr : rest.Nodup := (List.nodup_cons.mp hnd).2
    have htidr : tid ∉ rest := (List.nodup_cons.mp hnd).1
    rcases pass2Step_exec_facts lat execFn demoted s tid with
      ⟨hex, hfl⟩ | ⟨er, hertid, herbef, hex, hrest⟩
    · apply ih _ hndr
      · intro e he
        rw [hex] at he
        exact fun hmem => h2 e he (List.mem_cons_of_mem _ hmem)
      · rw [hfl, hex]
        exact h3
      · intro e he
        rw [hex] at he
        intro hc hb
        by_cases hk : e.tid = tid
        · exact absurd (hk ▸ List.mem_cons_self tid rest) (h2 e he)
        · rw [pass2Step_σ_other lat execFn demoted s tid e.tid hk]
          exact h4 e he hc hb
    · apply ih _ hndr
      · intro e he
        rw [hex] at he
        rcases List.mem_append.mp he with h | h
        · exact fun hmem => h2 e h (List.mem_cons_of_mem _ hmem)
        · have : e = er := by simpa using h
          rw [this, hertid]
          exact htidr
      · rw [hex]
        rcases hrest with ⟨hz, hfl⟩ | ⟨hz, hfl, _⟩
        · rw [hfl]
          constructor
          · intro ha
            obtain ⟨e, he, hc⟩ := h3.mp ha
            exact ⟨e, List.mem_append_left _ he, hc⟩
          · rintro ⟨e, he, hc⟩
            rcases List.mem_append.mp he with h | h
            · exact h3.mpr ⟨e, h, hc⟩
            · have : e = er := by simpa using h
              rw [this] at hc
              exact absurd hz hc
        · rw [hfl]
          simp only [true_iff]
          exact ⟨er, List.mem_append_right _ (List.mem_cons_self er []), hz⟩
      · intro e he
        rw [hex] at he
        rcases List.mem_append.mp he with h | h
        · intro hc hb
          by_cases hk : e.tid = tid
          · exact absurd (hk ▸ List.mem_cons_self tid rest) (h2 e h)
          · rw [pass2Step_σ_other lat execFn demoted s tid e.tid hk]
            exact h4 e h hc hb
        · have heq : e = er := by simpa using h
          rcases hrest with ⟨hz, _⟩ | ⟨hz, _, hσ⟩
          · intro hc _
            rw [heq] at hc
            exact absurd hz hc
          · intro _ hb
            rw [heq, hertid]
            exact hσ (by rw [← heq]; exact hb)

/-- The lattice's statuses are dependency-consistent: every verifiable task
whose status is `done` has all dependencies resolving and `done`.  Exactly the
condition under which pass 1 demotes nothing. -/
def consistentB (lat : Lattice) (σ : String → Option Status) : Bool :=
  (pyDictKeys lat.tasks).all (fun tid =>
    match task_index lat tid with
    | none => true
    | some t =>
      !(verifiableKind t.kind && (σ tid == some Status.done)) || depsDoneSnap lat σ t)

theorem consistentB_iff (lat : Lattice) (σ : String → Option Status) :
    consistentB lat σ = true ↔
      ∀ (tid : String) (t : Task), task_index lat tid = some t →
        verifiableKind t.kind = true → σ tid = some Status.done →
        depsDoneSnap lat σ t = true := by
  unfold consistentB
  rw [List.all_eq_true]
  constructor
  · intro h tid t ht hv hσ
    have htid : tid ∈ pyDictKeys lat.tasks := by
      rw [mem_pyDictKeys_iff_isSome, ht]
      rfl
    have h2 := h tid htid
    rw [ht] at h2
    dsimp only at h2
    simpa [hv, hσ] using h2
  · intro h tid _
    cases ht : task_index lat tid with
    | none => simp
    | some t =>
      dsimp only
      by_cases hv : verifiableKind t.kind
      · by_cases hσ : σ tid = some Status.done
        · simp [hv, hσ, h tid t ht hv hσ]
        · simp [hσ]
      · simp [hv]

/-- Under consistency, pass 1 changes nothing and demotes nobody. -/
theorem pass1_noop (lat : Lattice) (σ : String → Option Status)
    (h : consistentB lat σ = true) : pass1 lat σ σ = (σ, []) := by
  have hdc : ∀ tid, demoteCond lat σ tid = false := by
    intro tid
    unfold demoteCond
    cases ht : task_index lat tid with
    | none => rfl
    | some t =>
      dsimp only
      by_cases hv : verifiableKind t.kind
      · by_cases hσ : σ tid = some Status.done
        · simp [hv, hσ, (consistentB_iff lat σ).mp h tid t ht hv hσ]
        · simp [hσ]
      · simp [hv]
  have hfilter : (pyDictKeys lat.tasks).filter (demoteCond lat σ) = [] := by
    apply List.filter_eq_nil_iff.mpr
    intro a _
    simp [hdc a]
  have e1 : (pass1 lat σ σ).1 = σ := by
    funext k
    rw [pass1_σ lat σ σ k, hfilter]
    simp
  have e2 : (pass1 lat σ σ).2 = [] := by
    rw [pass1_demoted lat σ σ, hfilter]
  calc pass1 lat σ σ = ((pass1 lat σ σ).1, (pass1 lat σ σ).2) := rfl
    _ = (σ, []) := by rw [e1, e2]

/-- Exhaustive description of the status changes a pass-2 iteration can make:
none, a dynamic demotion to `planned`, a promotion to `done`, or a
failure-demotion to `in-progress` — each with the exact guard conditions from
the code. -/
theorem pass2Step_σ_shape (lat : Lattice) (execFn : String → Int)
    (demoted : List String) (s : P2State) (tid : String) :
    (pass2Step lat execFn demoted s tid).σ = s.σ ∨
      ∃ t cmd, task_index lat tid = some t ∧ verifiableKind t.kind = true ∧
        t.test = some cmd ∧ tid ∉ demoted ∧
        ((depsDoneCur lat s.σ t = false ∧ s.σ tid = some Status.done ∧
            (pass2Step lat execFn demoted s tid).σ
              = statusUpd s.σ tid (some Status.planned)) ∨
          (depsDoneCur lat s.σ t = true ∧ execFn cmd = 0 ∧
            s.σ tid ≠ some Status.done ∧
            (pass2Step lat execFn demoted s tid).σ
              = statusUpd s.σ tid (some Status.done)) ∨
          (depsDoneCur lat s.σ t = true ∧ execFn cmd ≠ 0 ∧
            s.σ tid = some Status.done ∧
            (pass2Step lat execFn demoted s tid).σ
              = statusUpd s.σ tid (some Status.inProgress))) := by
  unfold pass2Step
  cases hidx : task_index lat tid with
  | none => exact Or.inl rfl
  | some t =>
    dsimp only
    by_cases hv : verifiableKind t.kind
    · cases htest : t.test with
      | none => simp [hv]
      | some cmd =>
        by_cases hd : tid ∈ demoted
        · simp [hv, hd]
        · by_cases hcur : depsDoneCur lat s.σ t
          · by_cases hz : execFn cmd = 0
            · by_cases hdone : s.σ tid = some Status.done
              · left
                simp [hv, hd, hcur, hz, hdone]
              · right
                refine ⟨t, cmd, rfl, hv, htest, hd, Or.inr (Or.inl ⟨hcur, hz, hdone, ?_⟩)⟩
                simp [hv, hd, hcur, hz, hdone]
            · by_cases hdone : s.σ tid = some Status.done
              · right
                refine ⟨t, cmd, rfl, hv, htest, hd,
                  Or.inr (Or.inr ⟨hcur, hz, hdone, ?_⟩)⟩
                simp [hv, hd, hcur, hz, hdone]
              · left
                simp [hv, hd, hcur, hz, hdone]
          · by_cases hdone : s.σ tid = some Status.done
            · right
              refine ⟨t, cmd, rfl, hv, htest, hd,
                Or.inl ⟨by simpa using hcur, hdone, ?_⟩⟩
              simp [hv, hd, hcur, hdone]
            · left
              simp [hv, hd, hcur, hdone]
    · simp [hv]

/-- When the guards all pass and the command succeeds, the task ends the
iteration with status `done` (either it already was, or it is set now). -/
theorem pass2Step_promote (lat : Lattice) (execFn : String → Int)
    (demoted : List String) (s : P2State) (tid : String) (t : Task) (cmd : String)
    (hidx : task_index lat tid = some t) (hv : verifiableKind t.kind = true)
    (htest : t.test = some cmd) (hdem : tid ∉ demoted)
    (hdeps : depsDoneCur lat s.σ t = true) (hz : execFn cmd = 0) :
    (pass2Step lat execFn demoted s tid).σ tid = some Status.done := by
  unfold pass2Step
  rw [hidx]
  dsimp only
  by_cases hdone : s.σ tid = some Status.done
  · simp [hv, htest, hdem, hdeps, hz, hdone]
  · simp [hv, htest, hdem, hdeps, hz, hdone, statusUpd]

/-- Pass 2 never touches the status of an id outside the walked order. -/
theorem pass2_fold_σ_untouched (lat : Lattice) (execFn : String → Int)
    (demoted : List String) :
    ∀ (order : List String) (s : P2State) (k : String), k ∉ order →
      ((order.foldl (pass2Step lat execFn demoted) s).σ k = s.σ k) := by
  intro order
  induction order with
  | nil => intro s k _; rfl
  | cons tid rest ih =>
    intro s k hk
    rw [List.foldl_cons]
    have hkt : k ≠ tid := fun h => hk (h ▸ List.mem_cons_self _ _)
    have hkr : k ∉ rest := fun h => hk (List.mem_cons_of_mem _ h)
    rw [ih _ k hkr, pass2Step_σ_other lat execFn demoted s tid k hkt]

/-- Invariant of a consistent all-successful pass-2 run over the remaining
suffix `R`: statuses have only been promoted to `done`, done-ness of the
snapshot is preserved, and the suffix's own ids are still untouched. -/
def Run1Inv (σstart : String → Option Status) (R : List String)
    (σ : String → Option Status) : Prop :=
  (∀ k, σ k = σstart k ∨ σ k = some Status.done) ∧
    (∀ k, σstart k = some Status.done → σ k = some Status.done) ∧
    (∀ k ∈ R, σ k = σstart k)

theorem run1_suffix (lat : Lattice) (execFn : String → Int)
    (hexec : ∀ c, execFn c = 0)
    (σstart : String → Option Status) (hcons : consistentB lat σstart = true) :
    ∀ (R : List String) (s : P2State), R.Nodup → Run1Inv σstart R s.σ →
      Run1Inv σstart [] (R.foldl (pass2Step lat execFn []) s).σ ∧
        (∀ k, s.σ k = some Status.done →
          (R.foldl (pass2Step lat execFn []) s).σ k = some Status.done) ∧
        (∀ k, k ∉ R → (R.foldl (pass2Step lat execFn []) s).σ k = s.σ k) ∧
        (∀ k, (R.foldl (pass2Step lat execFn []) s).σ k ≠ s.σ k →
          ((R.foldl (pass2Step lat execFn []) s).σ k = some Status.done ∧
            ∃ t, task_index lat k = some t ∧ verifiableKind t.kind = true ∧
              t.test ≠ none ∧
              ∀ d ∈ t.depends_on, (task_index lat d).isSome = true ∧
                (R.foldl (pass2Step lat execFn []) s).σ d = some Status.done)) := by
  intro R
  induction R with
  | nil =>
    intro s _ hinv
    simp only [List.foldl_nil]
    refine ⟨⟨hinv.1, hinv.2.1, ?_⟩, ?_, ?_, ?_⟩
    · intro k hk
      cases hk
    · intro k hk
      exact hk
    · intro k _
      trivial
    · intro k hne
      exact absurd rfl hne
  | cons tid R ih =>
    intro s hnd hinv
    obtain ⟨hi, hii, hiii⟩ := hinv
    have hndR : R.Nodup := (List.nodup_cons.mp hnd).2
    rw [List.foldl_cons]
    rcases pass2Step_σ_shape lat execFn [] s tid with
      hsh | ⟨t, cmd, hidx, hv, htest, _, hcase⟩
    · have hinv' : Run1Inv σstart R (pass2Step lat execFn [] s tid).σ := by
        rw [hsh]
        exact ⟨hi, hii, fun k hk => hiii k (List.mem_cons_of_mem _ hk)⟩
      obtain ⟨c1, c2, c3, c4⟩ := ih _ hndR hinv'
      refine ⟨c1, ?_, ?_, ?_⟩
      · intro k hk
        exact c2 k (by rw [hsh]; exact hk)
      · intro k hk
        rw [c3 k (fun h => hk (List.mem_cons_of_mem _ h)), hsh]
      · intro k hk
        exact c4 k (by rw [hsh]; exact hk)
    · have hsnapdone : σstart tid = some Status.done → depsDoneSnap lat σstart t = true :=
        fun h => (consistentB_iff lat σstart).mp hcons tid t hidx hv h
      have hstid : s.σ tid = σstart tid := hiii tid (List.mem_cons_self _ _)
      have hcurT : s.σ tid = some Status.done → depsDoneCur lat s.σ t = true := by
        intro hdone
        have hsnap := hsnapdone (hstid ▸ hdone)
        unfold depsDoneCur
        unfold depsDoneSnap at hsnap
        rw [List.all_eq_true] at hsnap ⊢
        intro d hd
        have h2 := hsnap d hd
        rw [Bool.and_eq_true] at h2 ⊢
        refine ⟨h2.1, ?_⟩
        rw [beq_iff_eq]
        exact hii d (by simpa using h2.2)
      rcases hcase with ⟨hdF, hdone, _⟩ | ⟨hdT, hz0, hndone, hupd⟩ | ⟨_, hzne, _, _⟩
      · exact absurd (hcurT hdone) (by rw [hdF]; exact Bool.false_ne_true)
      · -- promotion of tid to done
        have hupdval : ∀ k, (pass2Step lat execFn [] s tid).σ k
            = if k = tid then some Status.done else s.σ k := by
          intro k
          rw [hupd]
          rfl
        have hinv' : Run1Inv σstart R (pass2Step lat execFn [] s tid).σ := by
          refine ⟨?_, ?_, ?_⟩
          · intro k
            rw [hupdval k]
            by_cases hk : k = tid
            · rw [if_pos hk]; exact Or.inr rfl
            · rw [if_neg hk]; exact hi k
          · intro k hk
            rw [hupdval k]
            by_cases hkt : k = tid
            · rw [if_pos hkt]
            · rw [if_neg hkt]; exact hii k hk
          · intro k hk
            have hkt : k ≠ tid := fun h =>
              (List.nodup_cons.mp hnd).1 (h ▸ hk)
            rw [hupdval k, if_neg hkt]
            exact hiii k (List.mem_cons_of_mem _ hk)
        obtain ⟨c1, c2, c3, c4⟩ := ih _ hndR hinv'
        have hmono1 : ∀ k, s.σ k = some Status.done →
            (pass2Step lat execFn [] s tid).σ k = some Status.done := by
          intro k hk
          rw [hupdval k]
          by_cases hkt : k = tid
          · rw [if_pos hkt]
          · rw [if_neg hkt]; exact hk
        refine ⟨c1, ?_, ?_, ?_⟩
        · intro k hk
          exact c2 k (hmono1 k hk)
        · intro k hk
          have hkt : k ≠ tid := fun h => hk (h ▸ List.mem_cons_self _ _)
          rw [c3 k (fun h => hk (List.mem_cons_of_mem _ h)), hupdval k, if_neg hkt]
        · intro k hk
          by_cases hch : (R.foldl (pass2Step lat execFn []) (pass2Step lat execFn [] s tid)).σ k
              = (pass2Step lat execFn [] s tid).σ k
          · -- the change happened at this very step: k = tid
            have hkt : k = tid := by
              by_contra hne
              rw [hch, hupdval k, if_neg hne] at hk
              exact hk rfl
            subst hkt
            rw [hch, hupdval k, if_pos rfl]
            refine ⟨rfl, t, hidx, hv, by rw [htest]; exact Option.some_ne_none cmd, ?_⟩
            intro d hd
            have hdT' := hdT
            unfold depsDoneCur at hdT'
            rw [List.all_eq_true] at hdT'
            have h2 := hdT' d hd
            rw [Bool.and_eq_true] at h2
            refine ⟨h2.1, ?_⟩
            apply c2
            exact hmono1 d (by simpa using h2.2)
          · exact c4 k hch
      · exact absurd (hexec cmd) hzne

theorem run1_post (lat : Lattice) (execFn : String → Int)
    (hexec : ∀ c, execFn c = 0) (σstart : String → Option Status)
    (hcons : consistentB lat σstart = true)
    (order : List String) (hnd : order.Nodup)
    (hall : ∀ k, k ∈ order ↔ k ∈ pyDictKeys lat.tasks)
    (hpos : ∀ t ∈ lat.tasks, ∀ d ∈ t.depends_on, d ∈ pyDictKeys lat.tasks →
      d ∈ order ∧ order.indexOf d < order.indexOf t.id)
    (s0 : P2State) (hs0 : s0.σ = σstart) :
    consistentB lat (order.foldl (pass2Step lat execFn []) s0).σ = true ∧
      ∀ tid t cmd, task_index lat tid = some t → verifiableKind t.kind = true →
        t.test = some cmd →
        (∀ d ∈ t.depends_on, (task_index lat d).isSome = true ∧
          (order.foldl (pass2Step lat execFn []) s0).σ d = some Status.done) →
        (order.foldl (pass2Step lat execFn []) s0).σ tid = some Status.done := by
  have hinv0 : Run1Inv σstart order s0.σ := by
    rw [hs0]
    exact ⟨fun k => Or.inl rfl, fun k hk => hk, fun k _ => rfl⟩
  obtain ⟨⟨ci, cii, _⟩, cmono, cuntouched, cchange⟩ :=
    run1_suffix lat execFn hexec σstart hcons order s0 hnd hinv0
  constructor
  · rw [consistentB_iff]
    intro tid t hidx hv hσ1
    by_cases hch : (order.foldl (pass2Step lat execFn []) s0).σ tid = s0.σ tid
    · have hstart : σstart tid = some Status.done := by
        rw [← hs0, ← hch]
        exact hσ1
      have hsnap := (consistentB_iff lat σstart).mp hcons tid t hidx hv hstart
      unfold depsDoneSnap at hsnap ⊢
      rw [List.all_eq_true] at hsnap ⊢
      intro d hd
      have h2 := hsnap d hd
      rw [Bool.and_eq_true] at h2 ⊢
      refine ⟨h2.1, ?_⟩
      rw [beq_iff_eq]
      exact cii d (by simpa using h2.2)
    · obtain ⟨_, t', hidx', _, _, hdeps⟩ := cchange tid hch
      obtain rfl : t' = t := by
        rw [hidx] at hidx'
        exact (Option.some_inj.mp hidx').symm
      unfold depsDoneSnap
      rw [List.all_eq_true]
      intro d hd
      rw [Bool.and_eq_true]
      obtain ⟨h1, h2⟩ := hdeps d hd
      exact ⟨h1, by rw [beq_iff_eq]; exact h2⟩
  · intro tid t cmd hidx hv htest hdeps
    by_cases htids : tid ∈ t.depends_on
    · exact (hdeps tid htids).2
    · have htidkeys : tid ∈ pyDictKeys lat.tasks := by
        rw [mem_pyDictKeys_iff_isSome, hidx]
        rfl
      obtain ⟨P, R, hsplit⟩ := List.append_of_mem ((hall tid).mpr htidkeys)
      have hndPR : (P ++ tid :: R).Nodup := hsplit ▸ hnd
      obtain ⟨hndP, hndTR, hdisj⟩ := List.nodup_append.mp hndPR
      have htidP : tid ∉ P := fun h => hdisj h (List.mem_cons_self _ _)
      have htidR : tid ∉ R := (List.nodup_cons.mp hndTR).1
      obtain ⟨htmem, htid_eq⟩ := task_index_mem hidx
      have hidxtid : order.indexOf tid = P.length := by
        rw [hsplit, List.indexOf_append_of_not_mem htidP]
        simp [List.indexOf_cons]
      have hfold2 : order.foldl (pass2Step lat execFn []) s0
          = (tid :: R).foldl (pass2Step lat execFn [])
              (P.foldl (pass2Step lat execFn []) s0) := by
        rw [hsplit, List.foldl_append]
      have hdcur : depsDoneCur lat (P.foldl (pass2Step lat execFn []) s0).σ t = true := by
        unfold depsDoneCur
        rw [List.all_eq_true]
        intro d hd
        rw [Bool.and_eq_true]
        obtain ⟨h1, h2⟩ := hdeps d hd
        refine ⟨h1, ?_⟩
        rw [beq_iff_eq]
        have hdne : d ≠ tid := fun h => htids (h ▸ hd)
        have hdkeys : d ∈ pyDictKeys lat.tasks := by
          rw [mem_pyDictKeys_iff_isSome]
          exact h1
        have hdR : d ∉ R := by
          intro hdR
          have hedge := (hpos t htmem d hd hdkeys).2
          rw [htid_eq] at hedge
          have hdP : d ∉ P := fun h => hdisj h (List.mem_cons_of_mem _ hdR)
          have hidxd : order.indexOf d = P.length + (R.indexOf d + 1) := by
            rw [hsplit, List.indexOf_append_of_not_mem hdP]
            have : (tid == d) = false := by
              simp [hdne.symm]
            simp [List.indexOf_cons, this]
          omega
        have hdTR : d ∉ tid :: R := by
          intro h
          rcases List.mem_cons.mp h with h | h
          · exact hdne h
          · exact hdR h
        have huntouched := pass2_fold_σ_untouched lat execFn [] (tid :: R)
          (P.foldl (pass2Step lat execFn []) s0) d hdTR
        rw [hfold2, huntouched] at h2
        exact h2
      have hstep := pass2Step_promote lat execFn []
        (P.foldl (pass2Step lat execFn []) s0) tid t cmd hidx hv htest
        (List.not_mem_nil tid) hdcur (hexec cmd)
      rw [hfold2, List.foldl_cons,
        pass2_fold_σ_untouched lat execFn [] R _ tid htidR]
      exact hstep

/-- Under consistency and saturation, a further complete pass changes no
status: every iteration is a status no-op. -/
theorem run2_noop (lat : Lattice) (execFn : String → Int)
    (hexec : ∀ c, execFn c = 0) (σ1 : String → Option Status)
    (hcons1 : consistentB lat σ1 = true)
    (hsat : ∀ tid t cmd, task_index lat tid = some t →
      verifiableKind t.kind = true → t.test = some cmd →
      (∀ d ∈ t.depends_on, (task_index lat d).isSome = true ∧
        σ1 d = some Status.done) →
      σ1 tid = some Status.done) :
    ∀ (order : List String) (s : P2State), (∀ k, s.σ k = σ1 k) →
      ∀ k, (order.foldl (pass2Step lat execFn []) s).σ k = σ1 k := by
  intro order
  induction order with
  | nil => intro s hs k; exact hs k
  | cons tid rest ih =>
    intro s hs k
    rw [List.foldl_cons]
    apply ih
    intro k2
    rcases pass2Step_σ_shape lat execFn [] s tid with
      hsh | ⟨t, cmd, hidx, hv, htest, _, hcase⟩
    · rw [hsh]; exact hs k2
    · have hdepsσ1 : depsDoneCur lat s.σ t = depsDoneCur lat σ1 t := by
        unfold depsDoneCur
        congr 1
        funext d
        rw [hs d]
      rcases hcase with ⟨hdF, hdone, _⟩ | ⟨hdT, _, hndone, _⟩ | ⟨_, hzne, _, _⟩
      · exfalso
        have hσ1done : σ1 tid = some Status.done := by rw [← hs tid]; exact hdone
        have hsnap := (consistentB_iff lat σ1).mp hcons1 tid t hidx hv hσ1done
        have : depsDoneCur lat σ1 t = true := by
          unfold depsDoneCur
          unfold depsDoneSnap at hsnap
          exact hsnap
        rw [hdepsσ1, this] at hdF
        cases hdF
      · exfalso
        apply hndone
        rw [hs tid]
        apply hsat tid t cmd hidx hv htest
        intro d hd
        have hdT' := hdT
        unfold depsDoneCur at hdT'
        rw [List.all_eq_true] at hdT'
        have h2 := hdT' d hd
        rw [Bool.and_eq_true] at h2
        exact ⟨h2.1, by rw [← hs d]; simpa using h2.2⟩
      · exact absurd (hexec cmd) hzne

/-! ### Single-task mode: `cli._main_test_single` -/

inductive SingleErr where
  | notFound
  | invalidKind
  | noTestCommand
  | depsNotDone (blocking : List String)
deriving DecidableEq

structure SingleOutcome where
  err : Option SingleErr
  executed : Option String
  exitCode : Int
  markedDone : Bool
deriving DecidableEq

/-- `deps_not_done = [d for d in t.depends_on if (d in idx and idx[d].status != "done")]`
from `_main_test_single`.  The `d in idx` conjunct makes the check skip
dependencies that do not resolve to an existing task. -/
def deps_not_done (lat : Lattice) (t : Task) : List String :=
  t.depends_on.filter (fun d =>
    match task_index lat d with
    | some u => !(u.status == some Status.done)
    | none => false)

/-- `cli._main_test_single`: `NotFound` via `task_by_id`, `InvalidKind`,
`NoTestCommand`, then `DependenciesNotDone` when `deps_not_done` is nonempty,
else run the command; the operation's exit code is the command's, and on
success with `--mark-done` the status is set to `done` (recorded here as
`markedDone`). -/
def main_test_single (lat : Lattice) (execFn : String → Int)
    (task_id : String) (mark_done : Bool) : SingleOutcome :=
  match task_by_id lat task_id with
  | none => ⟨some SingleErr.notFound, none, 1, false⟩
  | some t =>
    if !(verifiableKind t.kind) then ⟨some SingleErr.invalidKind, none, 1, false⟩
    else
      match t.test with
      | none => ⟨some SingleErr.noTestCommand, none, 1, false⟩
      | some cmd =>
        if deps_not_done lat t ≠ [] then
          ⟨some (SingleErr.depsNotDone (deps_not_done lat t)), none, 1, false⟩
        else
          ⟨none, some cmd, execFn cmd, mark_done && (execFn cmd == 0)⟩

/-! ### `cli.main_validate` -/

/-- The structural errors `main_validate` collects, one constructor per
f-string appended to `errors` (message formatting elided, decision logic and
payloads kept). -/
inductive VErr where
  | dup (id : String)
  | dangling (tid dep : String)
  | cycle (msg : String)
  | missingTest (tid : String)
deriving DecidableEq

/-- `main_validate`'s error list, in the order the code builds it: duplicate
ids (iterating `id_counts` in first-occurrence key order, reporting counts
above 1), dangling `depends_on` references, the cycle check through
`topological_sort`, and the test-command policy for verifiable kinds whose
(defaulted) status is past `suggested`. -/
def validate_errors (lat : Lattice) : List VErr :=
  ((pyDictKeys lat.tasks).filter
      (fun tid => 1 < (lat.tasks.filter (fun t => t.id == tid)).length)).map VErr.dup
    ++ lat.tasks.flatMap (fun t =>
        (t.depends_on.filter (fun d => (task_index lat d).isNone)).map
          (VErr.dangling t.id))
    ++ (match topological_sort lat with
        | Except.error e => [VErr.cycle e]
        | Except.ok _ => [])
    ++ lat.tasks.flatMap (fun t =>
        if verifiableKind t.kind
            && decide (statusOrSuggested t ∈ [Status.design, Status.planned,
                Status.inProgress, Status.done, Status.blocked])
            && t.test.isNone
        then [VErr.missingTest t.id] else [])

/-- `main_validate`'s exit code: 1 when any error was collected. -/
def main_validate_exit (lat : Lattice) : Int :=
  if validate_errors lat ≠ [] then 1 else 0

/-! ### `cli.main_next` presentation order -/

/-- `t.priority or "medium"`: the Python string the sort key compares. -/
def priorityStr : Option Priority → String
  | some Priority.low => "low"
  | some Priority.medium => "medium"
  | some Priority.high => "high"
  | none => "medium"

/-- Python's `<` on strings: lexicographic comparison of the code-point
sequences. -/
def charListLt : List Char → List Char → Bool
  | [], [] => false
  | [], _ :: _ => true
  | _ :: _, [] => false
  | c :: cs, d :: ds => decide (c < d) || (c == d && charListLt cs ds)

def strLtB (a b : String) : Bool := charListLt a.toList b.toList

def strLeB (a b : String) : Bool := strLtB a b || a == b

/-- The comparison induced by `sorted(ready, key=lambda t: (t.priority or "medium", t.id))`:
lexicographic on the pair of Python strings. -/
def nextKeyLE (a b : Task) : Bool :=
  strLtB (priorityStr a.priority) (priorityStr b.priority)
    || ((priorityStr a.priority == priorityStr b.priority) && strLeB a.id b.id)

/-- Stable insertion: a new element goes after every existing element that
compares ≤ to it, as Python's stable `sorted` places it. -/
def insertSorted (le : Task → Task → Bool) (x : Task) : List Task → List Task
  | [] => [x]
  | y :: ys => if le y x then y :: insertSorted le x ys else x :: y :: ys

/-- Stable sort by repeated insertion.  For a total transitive comparison on
keys (which `nextKeyLE` is), a stable sort's output is uniquely determined,
so this equals the output of Python's `sorted`. -/
def pySorted (le : Task → Task → Bool) (l : List Task) : List Task :=
  l.foldl (fun acc x => insertSorted le x acc) []

/-- The list of ready tasks in the order `main_next` prints them. -/
def main_next_order (lat : Lattice) : List Task :=
  pySorted nextKeyLE (compute_ready_tasks lat)

/-- The ordering claim C9 asserts: high before medium before low before
unset, then ascending by id. -/
def specPriorityRank : Option Priority → Nat
  | some Priority.high => 0
  | some Priority.medium => 1
  | some Priority.low => 2
  | none => 3

def claimNextLE (a b : Task) : Prop :=
  specPriorityRank a.priority < specPriorityRank b.priority ∨
    (specPriorityRank a.priority = specPriorityRank b.priority ∧ a.id ≤ b.id)

instance (a b : Task) : Decidable (claimNextLE a b) := by
  unfold claimNextLE
  infer_instance

theorem insertSorted_mem (le : Task → Task → Bool) (x : Task) :
    ∀ (l : List Task) (a : Task), a ∈ insertSorted le x l ↔ a = x ∨ a ∈ l := by
  intro l
  induction l with
  | nil => intro a; simp [insertSorted]
  | cons y ys ih =>
    intro a
    unfold insertSorted
    by_cases h : le y x
    · rw [if_pos h]
      simp only [List.mem_cons, ih]
      tauto
    · rw [if_neg h]
      simp only [List.mem_cons]

theorem insertSorted_sorted (le : Task → Task → Bool)
    (htot : ∀ a b, le a b = true ∨ le b a = true)
    (htrans : ∀ a b c, le a b = true → le b c = true → le a c = true)
    (x : Task) :
    ∀ l : List Task, l.Pairwise (fun a b => le a b = true) →
      (insertSorted le x l).Pairwise (fun a b => le a b = true) := by
  intro l
  induction l with
  | nil => intro _; simp [insertSorted]
  | cons y ys ih =>
    intro hp
    obtain ⟨hy, hys⟩ := List.pairwise_cons.mp hp
    unfold insertSorted
    by_cases h : le y x
    · rw [if_pos h]
      refine List.pairwise_cons.mpr ⟨?_, ih hys⟩
      intro a ha
      rcases (insertSorted_mem le x ys a).mp ha with rfl | ha
      · exact h
      · exact hy a ha
    · rw [if_neg h]
      have hxy : le x y = true := by
        rcases htot x y with h1 | h1
        · exact h1
        · exact absurd h1 h
      refine List.pairwise_cons.mpr ⟨?_, hp⟩
      intro a ha
      rcases List.mem_cons.mp ha with rfl | ha
      · exact hxy
      · exact htrans x y a hxy (hy a ha)

theorem insertSorted_perm (le : Task → Task → Bool) (x : Task) :
    ∀ l : List Task, List.Perm (insertSorted le x l) (x :: l) := by
  intro l
  induction l with
  | nil => simp [insertSorted]
  | cons y ys ih =>
    unfold insertSorted
    by_cases h : le y x
    · rw [if_pos h]
      exact (List.Perm.cons y ih).trans (List.Perm.swap x y ys)
    · rw [if_neg h]

theorem pySorted_sorted_perm (le : Task → Task → Bool)
    (htot : ∀ a b, le a b = true ∨ le b a = true)
    (htrans : ∀ a b c, le a b = true → le b c = true → le a c = true)
    (l : List Task) :
    (pySorted le l).Pairwise (fun a b => le a b = true) ∧
      List.Perm (pySorted le l) l := by
  unfold pySorted
  suffices h : ∀ (l : List Task) (acc : List Task),
      acc.Pairwise (fun a b => le a b = true) →
      (l.foldl (fun acc x => insertSorted le x acc) acc).Pairwise
          (fun a b => le a b = true) ∧
        List.Perm (l.foldl (fun acc x => insertSorted le x acc) acc) (acc ++ l) by
    obtain ⟨h1, h2⟩ := h l [] List.Pairwise.nil
    exact ⟨h1, by simpa using h2⟩
  intro l
  induction l with
  | nil => intro acc hacc; exact ⟨hacc, by simp⟩
  | cons x xs ih =>
    intro acc hacc
    rw [List.foldl_cons]
    obtain ⟨h1, h2⟩ := ih (insertSorted le x acc) (insertSorted_sorted le htot htrans x acc hacc)
    refine ⟨h1, h2.trans ?_⟩
    have ha : List.Perm (insertSorted le x acc ++ xs) (x :: (acc ++ xs)) :=
      (insertSorted_perm le x acc).append_right xs
    exact ha.trans List.perm_middle.symm

theorem charListLt_trichotomy : ∀ l m : List Char,
    charListLt l m = true ∨ l = m ∨ charListLt m l = true := by
  intro l
  induction l with
  | nil =>
    intro m
    cases m with
    | nil => exact Or.inr (Or.inl rfl)
    | cons d ds => exact Or.inl (by simp [charListLt])
  | cons c cs ih =>
    intro m
    cases m with
    | nil => exact Or.inr (Or.inr (by simp [charListLt]))
    | cons d ds =>
      rcases lt_trichotomy c d with h | rfl | h
      · exact Or.inl (by simp [charListLt, h])
      · rcases ih ds with h2 | rfl | h2
        · exact Or.inl (by simp [charListLt, h2])
        · exact Or.inr (Or.inl rfl)
        · exact Or.inr (Or.inr (by simp [charListLt, h2]))
      · exact Or.inr (Or.inr (by simp [charListLt, h]))

theorem charListLt_trans : ∀ l m n : List Char, charListLt l m = true →
    charListLt m n = true → charListLt l n = true := by
  intro l
  induction l with
  | nil =>
    intro m n hlm hmn
    cases m with
    | nil => exact hmn
    | cons d ds =>
      cases n with
      | nil => simp [charListLt] at hmn
      | cons e es => simp [charListLt]
  | cons c cs ih =>
    intro m n hlm hmn
    cases m with
    | nil => simp [charListLt] at hlm
    | cons d ds =>
      cases n with
      | nil => simp [charListLt] at hmn
      | cons e es =>
        simp only [charListLt, Bool.or_eq_true, Bool.and_eq_true,
          decide_eq_true_eq, beq_iff_eq] at hlm hmn ⊢
        rcases hlm with hlm | ⟨rfl, hlm2⟩
        · rcases hmn with hmn | ⟨rfl, _⟩
          · exact Or.inl (lt_trans hlm hmn)
          · exact Or.inl hlm
        · rcases hmn with hmn | ⟨rfl, hmn2⟩
          · exact Or.inl hmn
          · exact Or.inr ⟨rfl, ih ds es hlm2 hmn2⟩

theorem toList_inj {a b : String} (h : a.toList = b.toList) : a = b := by
  cases a
  cases b
  exact congrArg String.mk (by simpa [String.toList] using h)

theorem strLtB_trichotomy (a b : String) :
    strLtB a b = true ∨ a = b ∨ strLtB b a = true := by
  rcases charListLt_trichotomy a.toList b.toList with h | h | h
  · exact Or.inl h
  · exact Or.inr (Or.inl (toList_inj h))
  · exact Or.inr (Or.inr h)

theorem strLtB_trans (a b c : String) (h1 : strLtB a b = true)
    (h2 : strLtB b c = true) : strLtB a c = true :=
  charListLt_trans _ _ _ h1 h2

theorem nextKeyLE_total : ∀ a b, nextKeyLE a b = true ∨ nextKeyLE b a = true := by
  intro a b
  unfold nextKeyLE strLeB
  rcases strLtB_trichotomy (priorityStr a.priority) (priorityStr b.priority) with h | h | h
  · left
    simp [h]
  · rcases strLtB_trichotomy a.id b.id with h2 | h2 | h2
    · left
      simp [h, h2]
    · left
      simp [h, h2]
    · right
      simp [h.symm, h2]
  · right
    simp [h]

theorem nextKeyLE_trans : ∀ a b c, nextKeyLE a b = true → nextKeyLE b c = true →
    nextKeyLE a c = true := by
  intro a b c hab hbc
  simp only [nextKeyLE, strLeB, Bool.or_eq_true, Bool.and_eq_true,
    beq_iff_eq] at hab hbc ⊢
  rcases hab with hab | ⟨hab, hab2⟩
  · rcases hbc with hbc | ⟨hbc, _⟩
    · exact Or.inl (strLtB_trans _ _ _ hab hbc)
    · exact Or.inl (hbc ▸ hab)
  · rcases hbc with hbc | ⟨hbc, hbc2⟩
    · exact Or.inl (hab ▸ hbc)
    · refine Or.inr ⟨hab.trans hbc, ?_⟩
      rcases hab2 with h1 | h1
      · rcases hbc2 with h2 | h2
        · exact Or.inl (strLtB_trans _ _ _ h1 h2)
        · exact Or.inl (h2 ▸ h1)
      · rcases hbc2 with h2 | h2
        · exact Or.inl (h1 ▸ h2)
        · exact Or.inr (h1.trans h2)

/-! ### What it would mean for the cycle error to list a concrete cycle -/

/-- The character list `pat` starts the character list given second. -/
def leadMatch : List Char → List Char → Bool
  | [], _ => true
  | _ :: _, [] => false
  | c :: cs, d :: ds => c == d && leadMatch cs ds

/-- The character list `pat` occurs contiguously in the second list. -/
def occursIn (pat : List Char) : List Char → Bool
  | [] => leadMatch pat []
  | d :: ds => leadMatch pat (d :: ds) || occursIn pat ds

/-- `pat` occurs as a substring of `s`. -/
def strOccurs (pat s : String) : Bool :=
  occursIn pat.toList s.toList

/-- Claim C3's reading of "the error includes at least one concrete cycle as
an ordered list of ids that, walked along dependency edges, returns to its
starting id": some nonempty edge-walk that closes, every id of which appears
in the error message. -/
def CycleListed (lat : Lattice) (msg : String) : Prop :=
  ∃ c : List String, 2 ≤ c.length ∧ List.Chain' (edgeRel lat) c ∧
    c.head? = c.getLast? ∧ ∀ id ∈ c, strOccurs id msg = true

/-! ### Concrete lattices used to instantiate the claims -/

def demoProject : ProjectMeta := { id := "demo", name := "Demo Project" }

def chainA : Task :=
  { id := "a", name := "Task A", kind := Kind.task, status := some Status.planned,
    priority := none, depends_on := [], test := some "echo A" }

def chainB : Task :=
  { id := "b", name := "Task B", kind := Kind.task, status := some Status.planned,
    priority := none, depends_on := ["a"], test := some "echo B" }

/-- An acyclic, dependency-consistent two-task chain a ← b, both `planned`. -/
def exChain : Lattice := { project := demoProject, tasks := [chainA, chainB] }

def scenB : Task :=
  { id := "b", name := "Task B", kind := Kind.task, status := some Status.done,
    priority := none, depends_on := ["a"], test := some "echo B" }

/-- Scenario E of the specification: a(planned) ← b(done). -/
def exScenarioE : Lattice := { project := demoProject, tasks := [chainA, scenB] }

def dupDepB : Task :=
  { id := "b", name := "Task B", kind := Kind.task, status := some Status.planned,
    priority := none, depends_on := ["a", "a"], test := some "echo B" }

/-- Acyclic, but b lists its dependency on a twice. -/
def exDupDeps : Lattice := { project := demoProject, tasks := [chainA, dupDepB] }

def cycZ1 : Task :=
  { id := "z1", name := "Z1", kind := Kind.task, status := some Status.planned,
    priority := none, depends_on := ["z2"], test := some "echo Z" }

def cycZ2 : Task :=
  { id := "z2", name := "Z2", kind := Kind.task, status := some Status.planned,
    priority := none, depends_on := ["z1"], test := some "echo Z" }

/-- A two-task dependency cycle; the ids are chosen so that their text does
not occur in the fixed error message. -/
def exCycle : Lattice := { project := demoProject, tasks := [cycZ1, cycZ2] }

def failT1 : Task :=
  { id := "t1", name := "T1", kind := Kind.task, status := some Status.done,
    priority := none, depends_on := [], test := some "false" }

/-- A single `done` task whose test command fails. -/
def exFail : Lattice := { project := demoProject, tasks := [failT1] }

def dangT : Task :=
  { id := "t", name := "T", kind := Kind.task, status := some Status.planned,
    priority := none, depends_on := ["ghost"], test := some "true" }

/-- A task whose only dependency does not resolve to any task. -/
def exDangling : Lattice := { project := demoProject, tasks := [dangT] }

def blockedT : Task :=
  { id := "t", name := "T", kind := Kind.task, status := some Status.planned,
    priority := none, depends_on := ["a"], test := some "echo T" }

/-- t depends on the existing but not-`done` task a. -/
def exBlocked : Lattice := { project := demoProject, tasks := [chainA, blockedT] }

def dupA1 : Task :=
  { id := "a", name := "first a", kind := Kind.task, status := some Status.planned,
    priority := none, depends_on := [], test := some "echo A" }

def dupA2 : Task :=
  { id := "a", name := "second a", kind := Kind.task, status := some Status.done,
    priority := none, depends_on := [], test := some "echo A" }

/-- Two distinct tasks sharing the id "a". -/
def exDupIds : Lattice := { project := demoProject, tasks := [dupA1, dupA2] }

def nextL : Task :=
  { id := "l", name := "L", kind := Kind.task, status := some Status.planned,
    priority := some Priority.low, depends_on := [], test := some "echo L" }

def nextM : Task :=
  { id := "m", name := "M", kind := Kind.task, status := some Status.planned,
    priority := some Priority.medium, depends_on := [], test := some "echo M" }

/-- Two ready tasks, one `low` priority and one `medium` priority. -/
def exNext : Lattice := { project := demoProject, tasks := [nextL, nextM] }

instance {ε α : Type} [DecidableEq ε] [DecidableEq α] : DecidableEq (Except ε α) :=
  fun a b =>
    match a, b with
    | Except.error x, Except.error y =>
      if h : x = y then isTrue (by rw [h])
      else isFalse (fun hc => h (by injection hc))
    | Except.error _, Except.ok _ => isFalse (fun hc => Except.noConfusion hc)
    | Except.ok _, Except.error _ => isFalse (fun hc => Except.noConfusion hc)
    | Except.ok x, Except.ok y =>
      if h : x = y then isTrue (by rw [h])
      else isFalse (fun hc => h (by injection hc))

instance (lat : Lattice) : Decidable (ResolvingDepsNodup lat) := by
  unfold ResolvingDepsNodup
  infer_instance

instance (lat : Lattice) (a b : String) : Decidable (edgeRel lat a b) := by
  unfold edgeRel
  infer_instance

/-! ### The claims -/

/-- C1: `compute_ready_tasks` returns exactly the tasks of kind `task` whose
status (absent status read as `suggested`) is neither `done` nor `blocked`
and every id in whose `depends_on` resolves to an existing task whose status
is `done`; tasks of any other kind never appear in the result. -/
theorem claim_c1_ready_exact (lat : Lattice) :
    compute_ready_tasks lat = lat.tasks.filter (readyClaim lat) := by
  unfold compute_ready_tasks
  rw [compute_ready_foldl]
  rfl

/-- C2 counterexample: an acyclic lattice on which `topological_sort` raises.
Task b lists its dependency on a twice, the in-degree build counts both
entries, but the relaxation decrements only once per popped node, so b never
reaches in-degree zero. -/
theorem claim_c2_counterexample :
    Acyclic exDupDeps ∧ topological_sort exDupDeps = Except.error cycleMsg := by
  constructor
  · exact acyclic_of_rank exDupDeps (fun id => if id = "b" then 1 else 0) (by decide)
  · decide

/-- C2 (amended): for every acyclic lattice in which no task lists the same
resolving dependency id twice in its `depends_on`, `topological_sort` returns
(without raising) an order containing every task id exactly once in which
every dependency edge whose dep id resolves goes from a strictly smaller
position to a strictly larger one. -/
theorem claim_c2_amended (lat : Lattice) (hA : Acyclic lat)
    (hnd : ResolvingDepsNodup lat) :
    ∃ res, topological_sort lat = Except.ok res ∧ res.Nodup ∧
      (∀ k, k ∈ res ↔ k ∈ pyDictKeys lat.tasks) ∧
      ∀ e ∈ iter_edges lat, res.indexOf e.1 < res.indexOf e.2 := by
  obtain ⟨res, hres⟩ := topological_sort_ok_of_acyclic hA hnd
  obtain ⟨h1, h2, h3⟩ := topological_sort_ok_spec hres
  refine ⟨res, hres, h1, h2, ?_⟩
  intro e he
  obtain ⟨d, b⟩ := e
  obtain ⟨t, ht, htid, hd, hsome⟩ := (iter_edges_mem lat d b).mp he
  have := (h3 t ht d hd ((mem_pyDictKeys_iff_isSome lat d).mpr hsome)).2
  rw [htid] at this
  exact this

theorem claim_c2_witness :
    Acyclic exChain ∧ ResolvingDepsNodup exChain ∧
      ∃ res, topological_sort exChain = Except.ok res ∧ res.Nodup ∧
        (∀ k, k ∈ res ↔ k ∈ pyDictKeys exChain.tasks) ∧
        ∀ e ∈ iter_edges exChain, res.indexOf e.1 < res.indexOf e.2 := by
  have hA : Acyclic exChain :=
    acyclic_of_rank exChain (fun id => if id = "b" then 1 else 0) (by decide)
  have hnd : ResolvingDepsNodup exChain := by decide
  exact ⟨hA, hnd, claim_c2_amended exChain hA hnd⟩

/-- C3 counterexample: on a concrete two-task cycle the raised error is the
fixed message `"Cycle detected in dependency graph"`, which does not include
any ordered list of ids closing the loop (no id of any closed walk occurs in
the message text). -/
theorem claim_c3_counterexample :
    topological_sort exCycle = Except.error cycleMsg ∧ ¬CycleListed exCycle cycleMsg := by
  constructor
  · decide
  · rintro ⟨c, hlen, hchain, _, hocc⟩
    match c, hlen with
    | a :: b :: rest, _ =>
      have hedge : edgeRel exCycle a b := (List.chain'_cons.mp hchain).1
      have hmem : (a, b) ∈ iter_edges exCycle := hedge
      have : a = "z2" ∨ a = "z1" := by
        have hev : iter_edges exCycle = [("z2", "z1"), ("z1", "z2")] := by decide
        rw [hev] at hmem
        rcases List.mem_cons.mp hmem with h | h
        · exact Or.inl (congrArg Prod.fst h)
        · have : (a, b) = ("z1", "z2") := by simpa using h
          exact Or.inr (congrArg Prod.fst this)
      have hainc := hocc a (List.mem_cons_self _ _)
      rcases this with rfl | rfl
      · exact absurd hainc (by decide)
      · exact absurd hainc (by decide)

/-- C3 (amended): on every lattice containing a dependency cycle,
`topological_sort` never returns an order and raises the fixed
`ValueError("Cycle detected in dependency graph")`; the error carries no
concrete cycle, only that constant message. -/
theorem claim_c3_amended (lat : Lattice) (a : String)
    (h : Relation.TransGen (edgeRel lat) a a) :
    topological_sort lat = Except.error cycleMsg ∧
      ∀ res, topological_sort lat ≠ Except.ok res := by
  have herr := topological_sort_error_of_cycle h
  exact ⟨herr, fun res hok => by rw [herr] at hok; cases hok⟩

theorem claim_c3_witness :
    Relation.TransGen (edgeRel exCycle) "z1" "z1" ∧
      topological_sort exCycle = Except.error cycleMsg := by
  have h1 : edgeRel exCycle "z1" "z2" := by decide
  have h2 : edgeRel exCycle "z2" "z1" := by decide
  have hc : Relation.TransGen (edgeRel exCycle) "z1" "z1" :=
    Relation.TransGen.head h1 (Relation.TransGen.single h2)
  exact ⟨hc, (claim_c3_amended exCycle "z1" hc).1⟩

/-- C10: `task_by_id` returns the first task in insertion order whose id
matches (`none` when no task matches); `task_index` maps each id to the last
task in insertion order bearing it; and whenever all task ids are unique the
two lookups agree on every id. -/
theorem claim_c10_lookups (lat : Lattice) (i : String) :
    task_by_id lat i = lat.tasks.find? (fun t => t.id == i) ∧
      task_index lat i = lat.tasks.reverse.find? (fun t => t.id == i) ∧
      ((lat.tasks.map Task.id).Nodup → task_by_id lat i = task_index lat i) := by
  refine ⟨task_by_id_eq_find lat i, ?_, ?_⟩
  · rw [task_index_eq_findLast, findLast_eq_find_reverse]
  · intro hnd
    rw [task_by_id_eq_find, task_index_eq_findLast, findLast_eq_find_reverse]
    cases hf : lat.tasks.find? (fun t => t.id == i) with
    | none =>
      have hnone := List.find?_eq_none.mp hf
      symm
      apply List.find?_eq_none.mpr
      intro x hx
      exact hnone x (List.mem_reverse.mp hx)
    | some t =>
      have hmem := List.mem_of_find?_eq_some hf
      have hp := List.find?_some hf
      cases hg : lat.tasks.reverse.find? (fun t => t.id == i) with
      | none =>
        exact absurd hp (List.find?_eq_none.mp hg t (List.mem_reverse.mpr hmem))
      | some u =>
        have humem := List.mem_reverse.mp (List.mem_of_find?_eq_some hg)
        have hup := List.find?_some hg
        have heq : t = u := by
          have h1 : t.id = i := by simpa using hp
          have h2 : u.id = i := by simpa using hup
          exact List.inj_on_of_nodup_map hnd hmem humem (by rw [h1, h2])
        rw [heq]

theorem claim_c10_witness :
    (exChain.tasks.map Task.id).Nodup ∧ task_by_id exChain "a" = task_index exChain "a" :=
  ⟨by decide, (claim_c10_lookups exChain "a").2.2 (by decide)⟩

/-- C4: in whole-lattice verification, every verifiable task whose snapshot
status is `done` but some of whose dependencies was not snapshot-`done` (or
does not resolve) is demoted to `planned` in pass 1, its test is never
executed in pass 2 of the same invocation, and its status undergoes no
further change that run (it ends the run `planned`). -/
theorem claim_c4_pass1_demotion (lat : Lattice) (execFn : String → Int)
    (tid : String) (t : Task)
    (hidx : task_index lat tid = some t) (hv : verifiableKind t.kind = true)
    (hsnap : initStatus lat tid = some Status.done)
    (hdeps : depsDoneSnap lat (initStatus lat) t = false)
    (hcyc : (runComplete lat execFn).cycleError = false) :
    tid ∈ (runComplete lat execFn).demoted ∧
      (runComplete lat execFn).σ tid = some Status.planned ∧
      ∀ e ∈ (runComplete lat execFn).execs, e.tid ≠ tid := by
  cases hts : topological_sort lat with
  | error e =>
    rw [runComplete, runCompleteOn_cycle hts] at hcyc
    cases hcyc
  | ok order =>
    rw [runComplete, runCompleteOn_ok hts]
    dsimp only
    have hcond : demoteCond lat (initStatus lat) tid = true := by
      unfold demoteCond
      rw [hidx]
      dsimp only
      simp [hv, hsnap, hdeps]
    have htidkeys : tid ∈ pyDictKeys lat.tasks := by
      rw [mem_pyDictKeys_iff_isSome, hidx]
      rfl
    have hdem : tid ∈ (pass1 lat (initStatus lat) (initStatus lat)).2 := by
      rw [pass1_demoted]
      exact List.mem_filter.mpr ⟨htidkeys, hcond⟩
    have hplanned : ∀ k ∈ (pass1 lat (initStatus lat) (initStatus lat)).2,
        (pass1 lat (initStatus lat) (initStatus lat)).1 k = some Status.planned := by
      intro k hk
      rw [pass1_σ]
      rw [pass1_demoted] at hk
      rw [if_pos hk]
    obtain ⟨hfinal, hnoexec⟩ := pass2_fold_demoted lat execFn
      (pass1 lat (initStatus lat) (initStatus lat)).2 order
      { σ := (pass1 lat (initStatus lat) (initStatus lat)).1, anyFail := false, execs := [] }
      (fun k hk => hplanned k hk) (fun e he => absurd he (List.not_mem_nil e))
    exact ⟨hdem, hfinal tid hdem, fun e he h => hnoexec e he (h ▸ hdem)⟩

theorem claim_c4_witness :
    task_index exScenarioE "b" = some scenB ∧
      verifiableKind scenB.kind = true ∧
      initStatus exScenarioE "b" = some Status.done ∧
      depsDoneSnap exScenarioE (initStatus exScenarioE) scenB = false ∧
      (runComplete exScenarioE (fun _ => 0)).cycleError = false ∧
      "b" ∈ (runComplete exScenarioE (fun _ => 0)).demoted ∧
      (runComplete exScenarioE (fun _ => 0)).σ "b" = some Status.planned := by
  have h := claim_c4_pass1_demotion exScenarioE (fun _ => 0) "b" scenB
    (by decide) (by decide) (by decide) (by decide) (by decide)
  exact ⟨by decide, by decide, by decide, by decide, by decide, h.1, h.2.1⟩

/-- C5: whole-lattice verification (past the cycle check) returns a non-zero
result iff some pass-2 test execution returned a non-zero exit code; and
whenever a test fails on a task whose status was `done` at execution time,
that task ends the run demoted to `in-progress` (not `planned`). -/
theorem claim_c5_failure_semantics (lat : Lattice) (execFn : String → Int)
    (hcyc : (runComplete lat execFn).cycleError = false) :
    ((runComplete lat execFn).exitCode ≠ 0 ↔
        ∃ e ∈ (runComplete lat execFn).execs, e.code ≠ 0) ∧
      ∀ e ∈ (runComplete lat execFn).execs, e.code ≠ 0 →
        e.statusBefore = some Status.done →
        (runComplete lat execFn).σ e.tid = some Status.inProgress := by
  cases hts : topological_sort lat with
  | error e =>
    rw [runComplete, runCompleteOn_cycle hts] at hcyc
    cases hcyc
  | ok order =>
    have hnd : order.Nodup := (topological_sort_ok_spec hts).1
    rw [runComplete, runCompleteOn_ok hts]
    dsimp only
    obtain ⟨hiff, hdem⟩ := pass2_fold_fail lat execFn
      (pass1 lat (initStatus lat) (initStatus lat)).2 order
      { σ := (pass1 lat (initStatus lat) (initStatus lat)).1, anyFail := false, execs := [] }
      hnd (fun e he => absurd he (List.not_mem_nil e))
      (by simp) (fun e he => absurd he (List.not_mem_nil e))
    refine ⟨?_, hdem⟩
    cases hA : (order.foldl (pass2Step lat execFn
        (pass1 lat (initStatus lat) (initStatus lat)).2)
        { σ := (pass1 lat (initStatus lat) (initStatus lat)).1,
          anyFail := false, execs := [] }).anyFail
    · rw [hA] at hiff
      simp only [if_neg (Bool.false_ne_true)]
      constructor
      · intro h
        exact absurd rfl h
      · intro hex
        exact absurd (hiff.mpr hex) Bool.false_ne_true
    · rw [hA] at hiff
      simp only [if_pos rfl]
      constructor
      · intro _
        exact hiff.mp rfl
      · intro _
        exact one_ne_zero

theorem claim_c5_witness :
    (runComplete exFail (fun _ => 1)).cycleError = false ∧
      ((runComplete exFail (fun _ => 1)).exitCode ≠ 0 ↔
        ∃ e ∈ (runComplete exFail (fun _ => 1)).execs, e.code ≠ 0) ∧
      ∀ e ∈ (runComplete exFail (fun _ => 1)).execs, e.code ≠ 0 →
        e.statusBefore = some Status.done →
        (runComplete exFail (fun _ => 1)).σ e.tid = some Status.inProgress := by
  have h := claim_c5_failure_semantics exFail (fun _ => 1) (by decide)
  exact ⟨by decide, h.1, h.2⟩

/-- C6 counterexample: the spec's own Scenario E.  In `exScenarioE` the first
run demotes b in pass 1 (skipping its test) and promotes a; the second run
then finds b's dependency `done` and promotes b, so the lattice after the
second run differs from the lattice after the first run. -/
theorem claim_c6_counterexample :
    (runCompleteOn exScenarioE (fun _ => 0)
        ((runComplete exScenarioE (fun _ => 0)).σ)).σ "b"
      ≠ (runComplete exScenarioE (fun _ => 0)).σ "b" := by
  decide

/-- C6 (amended): for every lattice whose initial statuses are
dependency-consistent (no verifiable `done` task with a not-`done` or
unresolved dependency — i.e. pass 1 demotes nothing), running whole-lattice
verification twice in a row with every executed command exiting 0 leaves the
lattice after the second run identical to the lattice after the first: no
task's status changes during the second run. -/
theorem claim_c6_idempotent_of_consistent (lat : Lattice) (execFn : String → Int)
    (hexec : ∀ c, execFn c = 0)
    (hcons : consistentB lat (initStatus lat) = true) :
    ∀ k, (runCompleteOn lat execFn ((runComplete lat execFn).σ)).σ k
      = (runComplete lat execFn).σ k := by
  intro k
  cases hts : topological_sort lat with
  | error e =>
    rw [runComplete, runCompleteOn_cycle hts, runCompleteOn_cycle hts]
  | ok order =>
    obtain ⟨hnd, hall, hpos⟩ := topological_sort_ok_spec hts
    have hp1 := pass1_noop lat (initStatus lat) hcons
    have hrun1 : runComplete lat execFn =
        { σ := (order.foldl (pass2Step lat execFn [])
            { σ := initStatus lat, anyFail := false, execs := [] }).σ,
          demoted := [],
          execs := (order.foldl (pass2Step lat execFn [])
            { σ := initStatus lat, anyFail := false, execs := [] }).execs,
          anyFail := (order.foldl (pass2Step lat execFn [])
            { σ := initStatus lat, anyFail := false, execs := [] }).anyFail,
          cycleError := false,
          exitCode := if (order.foldl (pass2Step lat execFn [])
            { σ := initStatus lat, anyFail := false, execs := [] }).anyFail
            then 1 else 0 } := by
      rw [runComplete, runCompleteOn_ok hts, hp1]
    obtain ⟨hcons1, hsat⟩ := run1_post lat execFn hexec (initStatus lat) hcons
      order hnd hall hpos
      { σ := initStatus lat, anyFail := false, execs := [] } rfl
    have hσ1 : (runComplete lat execFn).σ =
        (order.foldl (pass2Step lat execFn [])
          { σ := initStatus lat, anyFail := false, execs := [] }).σ := by
      rw [hrun1]
    rw [hσ1]
    have hp2 := pass1_noop lat
      ((order.foldl (pass2Step lat execFn [])
        { σ := initStatus lat, anyFail := false, execs := [] }).σ) hcons1
    rw [runCompleteOn_ok hts, hp2]
    dsimp only
    exact run2_noop lat execFn hexec _ hcons1 hsat order
      { σ := (order.foldl (pass2Step lat execFn [])
          { σ := initStatus lat, anyFail := false, execs := [] }).σ,
        anyFail := false, execs := [] } (fun _ => rfl) k

theorem claim_c6_witness :
    consistentB exChain (initStatus exChain) = true ∧
      (runCompleteOn exChain (fun _ => 0)
          ((runComplete exChain (fun _ => 0)).σ)).σ "b"
        = (runComplete exChain (fun _ => 0)).σ "b" :=
  ⟨by decide,
    claim_c6_idempotent_of_consistent exChain (fun _ => 0) (fun _ => rfl) (by decide) "b"⟩

/-- C7 counterexample: a task whose only dependency does not resolve to any
task.  The check `d in idx and idx[d].status != "done"` skips the dangling
id, so the operation does not fail with `DependenciesNotDone` — it runs the
test command. -/
theorem claim_c7_counterexample :
    (main_test_single exDangling (fun _ => 0) "t" false).executed = some "true" ∧
      (main_test_single exDangling (fun _ => 0) "t" false).err = none := by
  decide

/-- C7 (amended): after the NotFound/InvalidKind/NoTestCommand checks pass,
single-task verification fails with `DependenciesNotDone` listing every
dependency that resolves to an existing task whose current status is not
`done` (dangling dependencies are skipped by this check), and in that case no
test command is executed and the exit code is 1. -/
theorem claim_c7_deps_check (lat : Lattice) (execFn : String → Int)
    (task_id : String) (mark_done : Bool) (t : Task) (cmd : String)
    (hfind : task_by_id lat task_id = some t)
    (hv : verifiableKind t.kind = true) (htest : t.test = some cmd)
    (hne : deps_not_done lat t ≠ []) :
    main_test_single lat execFn task_id mark_done
      = ⟨some (SingleErr.depsNotDone (deps_not_done lat t)), none, 1, false⟩ := by
  unfold main_test_single
  rw [hfind]
  dsimp only
  rw [if_neg (by simp [hv]), htest]
  dsimp only
  rw [if_pos hne]

theorem claim_c7_witness :
    task_by_id exBlocked "t" = some blockedT ∧
      verifiableKind blockedT.kind = true ∧
      blockedT.test = some "echo T" ∧
      deps_not_done exBlocked blockedT = ["a"] ∧
      main_test_single exBlocked (fun _ => 0) "t" false
        = ⟨some (SingleErr.depsNotDone (deps_not_done exBlocked blockedT)),
            none, 1, false⟩ := by
  refine ⟨by decide, by decide, by decide, by decide, ?_⟩
  exact claim_c7_deps_check exBlocked (fun _ => 0) "t" false blockedT "echo T"
    (by decide) (by decide) (by decide) (by decide)

/-- C8 counterexample: a lattice with the id "a" appearing twice is not
rejected when constructed/loaded — `load_lattice` returns it unchanged and a
graph operation (`topological_sort`) runs on it — and the duplicate is only
reported by the validate operation. -/
theorem claim_c8_counterexample :
    load_lattice demoProject [dupA1, dupA2] = exDupIds ∧
      topological_sort exDupIds = Except.ok ["a"] ∧
      VErr.dup "a" ∈ validate_errors exDupIds := by
  refine ⟨rfl, by decide, by decide⟩

/-- C8 (amended): duplicate ids are not rejected at load time; they are
detected by the validate operation, whose error list contains a DuplicateId
error for every id that occurs more than once in the task list. -/
theorem claim_c8_validate_dup (lat : Lattice) (dupId : String)
    (h : 1 < (lat.tasks.filter (fun t => t.id == dupId)).length) :
    VErr.dup dupId ∈ validate_errors lat := by
  unfold validate_errors
  apply List.mem_append_left
  apply List.mem_append_left
  apply List.mem_append_left
  apply List.mem_map.mpr
  refine ⟨dupId, ?_, rfl⟩
  apply List.mem_filter.mpr
  refine ⟨?_, by simpa using h⟩
  have hne : lat.tasks.filter (fun t => t.id == dupId) ≠ [] := by
    intro h0
    rw [h0] at h
    simp at h
  obtain ⟨t, ht⟩ := List.exists_mem_of_ne_nil _ hne
  have hm := List.mem_filter.mp ht
  exact (pyDictKeys_mem lat.tasks dupId).mpr ⟨t, hm.1, by simpa using hm.2⟩

theorem claim_c8_witness :
    1 < (exDupIds.tasks.filter (fun t => t.id == "a")).length ∧
      VErr.dup "a" ∈ validate_errors exDupIds :=
  ⟨by decide, claim_c8_validate_dup exDupIds "a" (by decide)⟩

/-- C9 counterexample: with one `low`-priority and one `medium`-priority
ready task, `main_next` presents the `low` task first, because the sort key
is the pair of Python strings `(t.priority or "medium", t.id)` and
`"low" < "medium"` lexicographically — contradicting the claimed order
high, medium, low, unset. -/
theorem claim_c9_counterexample :
    main_next_order exNext = [nextL, nextM] ∧ ¬claimNextLE nextL nextM := by
  constructor
  · decide
  · decide

/-- C9 (amended): the ready-task list presented by `next` is the ready set
sorted (stably) by the lexicographic order on the string pair
`(priority with unset read as "medium", id)` — so high sorts before low
before medium, unset ties with medium, and ties break ascending by id. -/
theorem claim_c9_sort_order (lat : Lattice) :
    (main_next_order lat).Pairwise (fun a b => nextKeyLE a b = true) ∧
      List.Perm (main_next_order lat) (compute_ready_tasks lat) :=
  pySorted_sorted_perm nextKeyLE nextKeyLE_total nextKeyLE_trans
    (compute_ready_tasks lat)

end LatticeBase
